import Mathlib

/-!
Verification of the battletris battle engine core (src/battle.rs,
src/battle/game.rs, src/battle/game/data.rs) against its specification.

The Rust source is shallowly embedded: machine integers are modelled as
`Int`/`Nat` (with explicit `% 2 ^ 64` where a Rust `as usize` cast matters and
`% 2 ^ 32` where `u32` addition occurs), `Vec`/arrays become `List`s, a
`HashMap` becomes an association list, and the `BinaryHeap` becomes a list
together with a deterministic select-the-maximum pop (the Rust heap's
tie-breaking among `cmp`-equal elements is unspecified; the results proved
here do not depend on the tie order chosen).
-/

namespace Battletris

/-- Tetromino kinds, data.rs `Piece`. -/
inductive Piece
  | I | O | T | L | J | S | Z
deriving DecidableEq, Repr

/-- Orientations, data.rs `Rotation`. -/
inductive Rotation
  | North | East | South | West
deriving DecidableEq, Repr

/-- Spin classification, data.rs `Spin`. -/
inductive Spin
  | None | Mini | Full
deriving DecidableEq, Repr

/-- A placed piece, data.rs `PieceLocation`. Coordinates are Rust `i32`,
modelled as `Int`. -/
structure PieceLocation where
  piece : Piece
  rotation : Rotation
  x : Int
  y : Int
deriving DecidableEq, Repr

/-- Cell contents, data.rs `CellColor`. -/
inductive CellColor
  | Piece (p : Piece)
  | Garbage
  | Empty
deriving DecidableEq, Repr

/-- The playfield, data.rs `Board`: `[[CellColor; 10]; 40]`, row 0 at the
bottom. The fixed 40 x 10 shape of the Rust array type is the separate
predicate `Board.WF`. -/
structure Board where
  field : List (List CellColor)
deriving DecidableEq, Repr

/-- Shape invariant of the Rust type `[[CellColor; 10]; 40]`. -/
def Board.WF (b : Board) : Prop :=
  b.field.length = 40 ∧ ∀ r ∈ b.field, r.length = 10

instance (b : Board) : Decidable b.WF := by
  unfold Board.WF; infer_instance

/-- Rust `as usize` on an `i32`/`i64` value: two's-complement wrap into
`[0, 2^64)`. -/
def usizeOfInt (i : Int) : Nat := (i % (2 ^ 64)).toNat

/-- data.rs `Piece::cells`: the base footprint in North rotation. -/
def Piece.cells : Piece → List (Int × Int)
  | Piece.I => [(-1, 0), (0, 0), (1, 0), (2, 0)]
  | Piece.O => [(0, 0), (1, 0), (0, 1), (1, 1)]
  | Piece.T => [(-1, 0), (0, 0), (1, 0), (0, 1)]
  | Piece.L => [(-1, 0), (0, 0), (1, 0), (1, 1)]
  | Piece.J => [(-1, 0), (0, 0), (1, 0), (-1, 1)]
  | Piece.S => [(-1, 0), (0, 0), (0, 1), (1, 1)]
  | Piece.Z => [(-1, 1), (0, 1), (0, 0), (1, 0)]

/-- data.rs `Rotation::rotate`. -/
def Rotation.rotate : Rotation → Int → Int → Int × Int
  | Rotation.North, x, y => (x, y)
  | Rotation.East, x, y => (y, -x)
  | Rotation.South, x, y => (-x, -y)
  | Rotation.West, x, y => (-y, x)

/-- data.rs `Rotation::cw`. -/
def Rotation.cw : Rotation → Rotation
  | Rotation.North => Rotation.East
  | Rotation.East => Rotation.South
  | Rotation.South => Rotation.West
  | Rotation.West => Rotation.North

/-- data.rs `Rotation::ccw`. -/
def Rotation.ccw : Rotation → Rotation
  | Rotation.North => Rotation.West
  | Rotation.East => Rotation.North
  | Rotation.South => Rotation.East
  | Rotation.West => Rotation.South

/-- data.rs `PieceLocation::cells`: footprint rotated and translated. -/
def PieceLocation.cells (l : PieceLocation) : List (Int × Int) :=
  (l.piece.cells.map fun c => l.rotation.rotate c.1 c.2).map
    fun c => (c.1 + l.x, c.2 + l.y)

/-- data.rs `Board::get`: `self.field.get(y as usize).and_then(|a| a.get(x as
usize)).copied() != Some(CellColor::Empty)`. Any lookup that misses (x or y
out of range after the `as usize` wrap, including `y >= 40`) yields `none`,
hence `true`. -/
def Board.get (b : Board) (x y : Int) : Bool :=
  match (b.field.get? (usizeOfInt y)).bind fun r => r.get? (usizeOfInt x) with
  | some CellColor.Empty => false
  | _ => true

/-- data.rs `PieceLocation::obstructed`. -/
def PieceLocation.obstructed (l : PieceLocation) (b : Board) : Bool :=
  l.cells.any fun c => b.get c.1 c.2

/-- data.rs `offsets`: the SRS kick offset tables. -/
def offsets : Piece → Rotation → List (Int × Int)
  | Piece.O, Rotation.North => [(0, 0)]
  | Piece.O, Rotation.East => [(0, -1)]
  | Piece.O, Rotation.South => [(-1, -1)]
  | Piece.O, Rotation.West => [(-1, 0)]
  | Piece.I, Rotation.North => [(0, 0), (-1, 0), (2, 0), (-1, 0), (2, 0)]
  | Piece.I, Rotation.East => [(-1, 0), (0, 0), (0, 0), (0, 1), (0, -2)]
  | Piece.I, Rotation.South => [(-1, 1), (1, 1), (-2, 1), (1, 0), (-2, 0)]
  | Piece.I, Rotation.West => [(0, 1), (0, 1), (0, 1), (0, -1), (0, 2)]
  | _, Rotation.North => [(0, 0), (0, 0), (0, 0), (0, 0), (0, 0)]
  | _, Rotation.East => [(0, 0), (1, 0), (1, -1), (0, 2), (1, 2)]
  | _, Rotation.South => [(0, 0), (0, 0), (0, 0), (0, 0), (0, 0)]
  | _, Rotation.West => [(0, 0), (-1, 0), (-1, -1), (0, 2), (-1, 2)]

/-- data.rs `PieceLocation::rotate`: the wall-kick candidate sequence for a
target rotation. -/
def PieceLocation.rotate (l : PieceLocation) (rot : Rotation) :
    List PieceLocation :=
  ((offsets l.piece l.rotation).zip (offsets l.piece rot)).map
    fun p => { x := l.x + p.1.1 - p.2.1, y := l.y + p.1.2 - p.2.2,
               rotation := rot, piece := l.piece }

/-- data.rs `PieceLocation::canonical_form`. -/
def PieceLocation.canonical_form (l : PieceLocation) : PieceLocation :=
  match l.piece with
  | Piece.T | Piece.J | Piece.L => l
  | Piece.O =>
    match l.rotation with
    | Rotation.North => l
    | Rotation.East => { l with rotation := Rotation.North, y := l.y - 1 }
    | Rotation.South =>
      { l with rotation := Rotation.North, x := l.x - 1, y := l.y - 1 }
    | Rotation.West => { l with rotation := Rotation.North, x := l.x - 1 }
  | Piece.S | Piece.Z =>
    match l.rotation with
    | Rotation.North | Rotation.East => l
    | Rotation.South => { l with rotation := Rotation.North, y := l.y - 1 }
    | Rotation.West => { l with rotation := Rotation.East, x := l.x - 1 }
  | Piece.I =>
    match l.rotation with
    | Rotation.North | Rotation.East => l
    | Rotation.South => { l with rotation := Rotation.North, x := l.x - 1 }
    | Rotation.West => { l with rotation := Rotation.East, y := l.y + 1 }

/-- An all-empty row. -/
def emptyRow : List CellColor := List.replicate 10 CellColor.Empty

/-- A row is full when every cell is non-empty (the rows data.rs
`Board::place` discards). -/
def rowFull (r : List CellColor) : Bool := r.all fun c => c ≠ CellColor.Empty

/-- Write one cell. `List.set` on an in-range index; the source indexes the
fixed-size array directly (callers pass validated in-range cells). -/
def Board.setCell (b : Board) (x y : Int) (c : CellColor) : Board :=
  ⟨b.field.set (usizeOfInt y)
    (((b.field.get? (usizeOfInt y)).getD []).set (usizeOfInt x) c)⟩

/-- The cell-writing phase of data.rs `Board::place`: colour the four cells
of the placement. -/
def Board.writeCells (b : Board) (loc : PieceLocation) : Board :=
  loc.cells.foldl
    (fun bb c => bb.setCell c.1 c.2 (CellColor.Piece loc.piece)) b

/-- data.rs `Board::place`: write the four cells, then drop every full row,
compact the rest downward and pad with empty rows on top; return the number
of dropped rows. The source's in-place copy-down loop reads each original
row once and writes it to the next free slot, which is exactly
filter-and-pad. -/
def Board.place (b : Board) (loc : PieceLocation) : Nat × Board :=
  let kept := (b.writeCells loc).field.filter fun r => ¬ rowFull r
  (40 - kept.length, ⟨kept ++ List.replicate (40 - kept.length) emptyRow⟩)

/-- data.rs `Board::is_pc`: row 0 entirely empty. The source indexes
`field[0]`; on the 40-row well-formed board the lookup always hits. -/
def Board.is_pc (b : Board) : Bool := (b.field.getD 0 []) = emptyRow

/-- A garbage row with its hole at column `c`. -/
def garbageRow (c : Nat) : List CellColor :=
  (List.range 10).map fun x =>
    if x = c then CellColor.Empty else CellColor.Garbage

/-- data.rs `Board::add_garbage`: the downward copy loop writes, for
`y < cols.len()`, a garbage row with hole `cols[cols.len() - y - 1]`, and for
`y >= cols.len()` the old row `y - cols.len()`; i.e. the new field is the
reversed hole list as garbage rows below the old rows, truncated to 40. -/
def Board.add_garbage (b : Board) (cols : List Nat) : Board :=
  ⟨((cols.reverse.map garbageRow) ++ b.field).take 40⟩

/-- game.rs `check_spin`. The source increments `mini_corners` for the two
corners at rotated offsets (-1, 1) and (1, 1) and `norm_corners` for the two
at rotated offsets (-1, -1) and (1, -1). Sequential increments are written
as sums of indicator values. -/
def check_spin (b : Board) (loc : PieceLocation) (kick : Nat) : Spin :=
  if loc.piece ≠ Piece.T then Spin.None
  else
    let c1 := loc.rotation.rotate (-1) 1
    let c2 := loc.rotation.rotate 1 1
    let c3 := loc.rotation.rotate (-1) (-1)
    let c4 := loc.rotation.rotate 1 (-1)
    let mini_corners : Nat :=
      (if b.get (c1.1 + loc.x) (c1.2 + loc.y) then 1 else 0) +
      (if b.get (c2.1 + loc.x) (c2.2 + loc.y) then 1 else 0)
    let norm_corners : Nat :=
      (if b.get (c3.1 + loc.x) (c3.2 + loc.y) then 1 else 0) +
      (if b.get (c4.1 + loc.x) (c4.2 + loc.y) then 1 else 0)
    if norm_corners + mini_corners < 3 then Spin.None
    else if mini_corners < 2 ∧ kick ≠ 4 then Spin.Mini
    else Spin.Full

/-- C1's reading of section 4.2 of the spec, word for word: the corners on
the side the T points to (rotated offsets with positive second component)
are labelled *norm*, those on the opposite side *mini*, and `Mini` requires
the *mini*-labelled (non-pointing-side) corners to hold fewer than two
cells. Written only for comparison with `check_spin`. -/
def check_spin_spec_labels (b : Board) (loc : PieceLocation) (kick : Nat) :
    Spin :=
  if loc.piece ≠ Piece.T then Spin.None
  else
    let c1 := loc.rotation.rotate (-1) 1
    let c2 := loc.rotation.rotate 1 1
    let c3 := loc.rotation.rotate (-1) (-1)
    let c4 := loc.rotation.rotate 1 (-1)
    let norm_corners : Nat :=
      (if b.get (c1.1 + loc.x) (c1.2 + loc.y) then 1 else 0) +
      (if b.get (c2.1 + loc.x) (c2.2 + loc.y) then 1 else 0)
    let mini_corners : Nat :=
      (if b.get (c3.1 + loc.x) (c3.2 + loc.y) then 1 else 0) +
      (if b.get (c4.1 + loc.x) (c4.2 + loc.y) then 1 else 0)
    if norm_corners + mini_corners < 3 then Spin.None
    else if mini_corners < 2 ∧ kick ≠ 4 then Spin.Mini
    else Spin.Full

/-- Occupied count of the two diagonal corners on the pointing side of a T
centre (the side holding the T's fourth cell: rotated offsets (-1, 1) and
(1, 1)). -/
def tPointingCorners (b : Board) (loc : PieceLocation) : Nat :=
  let c1 := loc.rotation.rotate (-1) 1
  let c2 := loc.rotation.rotate 1 1
  (if b.get (c1.1 + loc.x) (c1.2 + loc.y) then 1 else 0) +
  (if b.get (c2.1 + loc.x) (c2.2 + loc.y) then 1 else 0)

/-- Occupied count of the two diagonal corners opposite the pointing side
(rotated offsets (-1, -1) and (1, -1)). -/
def tOppositeCorners (b : Board) (loc : PieceLocation) : Nat :=
  let c3 := loc.rotation.rotate (-1) (-1)
  let c4 := loc.rotation.rotate 1 (-1)
  (if b.get (c3.1 + loc.x) (c3.2 + loc.y) then 1 else 0) +
  (if b.get (c4.1 + loc.x) (c4.2 + loc.y) then 1 else 0)

/-- Pending garbage entry, game.rs `Garbage`. -/
structure Garbage where
  add_time : Nat
  amount : Nat
deriving DecidableEq, Repr

/-- game.rs `Game::counter_garbage` acting on the pending queue: consume
entries head-first while the head fits in the remaining amount; otherwise
decrement the head and stop. Returns the residual amount and the new queue. -/
def counterGarbageQueue (amount : Nat) :
    List Garbage → Nat × List Garbage
  | [] => (amount, [])
  | g :: rest =>
    if g.amount ≤ amount then counterGarbageQueue (amount - g.amount) rest
    else (0, { g with amount := g.amount - amount } :: rest)

/-- Total amount held in a pending-garbage queue. -/
def garbageTotal (q : List Garbage) : Nat := (q.map Garbage.amount).sum

/-- Head-first consumption relation: `q'` is obtained from `q` by dropping a
prefix of entries and possibly lowering the amount of the first remaining
entry (its deposit time untouched). -/
def consumedSuffix : List Garbage → List Garbage → Bool
  | _, [] => true
  | [], _ :: _ => false
  | g :: rest, g' :: rest' =>
    (decide (rest' = rest) && decide (g'.add_time = g.add_time) &&
      decide (g'.amount ≤ g.amount)) ||
    consumedSuffix rest (g' :: rest')

/-- Wrap of Rust `u32` addition results. -/
def u32 (n : Nat) : Nat := n % 2 ^ 32

/-- Largest `u32` value, game.rs `u32::MAX` (the unreached sentinel cost). -/
def MAXU32 : Nat := 2 ^ 32 - 1

/-- game.rs `Cost`: `base` and `softdrop` components in virtual-time units. -/
structure Cost where
  base : Nat
  softdrop : Nat
deriving DecidableEq, Repr

/-- game.rs `impl Ord for Cost`: base ascending, then softdrop ascending,
then reversed (so the max-heap surfaces the smallest pair). -/
def costCmp (a b : Cost) : Ordering :=
  ((compare a.base b.base).then (compare a.softdrop b.softdrop)).swap

/-- game.rs `QueueMove`. -/
structure QueueMove where
  loc : PieceLocation
  spin : Spin
  cost : Cost
deriving DecidableEq, Repr

/-- The one move of the search queue that `BinaryHeap::pop` surfaces: a
maximal element under `costCmp` (the leftmost one — Rust's tie order among
`cmp`-equal entries is unspecified and the final map does not depend on
it). -/
def qmBest (x : QueueMove) (q : List QueueMove) : QueueMove :=
  q.foldl (fun best c => if costCmp c.cost best.cost = Ordering.gt then c
    else best) x

/-- Model of `BinaryHeap::pop` on the search queue. -/
def qmHeapPop : List QueueMove → Option (QueueMove × List QueueMove)
  | [] => none
  | x :: xs => some (qmBest x xs, (x :: xs).erase (qmBest x xs))

/-- game.rs `movegen`'s `index` closure: `(rotation as i32 + 4 * x + 40 *
spin as i32 + 120 * y) as usize`. -/
def rotIdx : Rotation → Int
  | Rotation.North => 0
  | Rotation.East => 1
  | Rotation.South => 2
  | Rotation.West => 3

/-- Discriminant of `Spin` as in `spin as i32`. -/
def spinIdx : Spin → Int
  | Spin.None => 0
  | Spin.Mini => 1
  | Spin.Full => 2

/-- Index into the 4800-entry `reached` vector. -/
def mgIndex (loc : PieceLocation) (spin : Spin) : Nat :=
  usizeOfInt (rotIdx loc.rotation + 4 * loc.x + 40 * spinIdx spin +
    120 * loc.y)

/-- Pointwise update of the `reached` vector modelled as a function. -/
def updateFn (f : Nat → Cost) (i : Nat) (c : Cost) : Nat → Cost :=
  fun j => if j = i then c else f j

/-- First unobstructed wall-kick candidate together with its kick index
(the enumerate-test-break loop in game.rs `movegen`). -/
def firstKick (b : Board) : Nat → List PieceLocation →
    Option (PieceLocation × Nat)
  | _, [] => none
  | i, l :: ls => if l.obstructed b then firstKick b (i + 1) ls
    else some (l, i)

/-- The moves of game.rs `movegen`'s expansion. -/
inductive PMove
  | left | right | cw | ccw | down
deriving DecidableEq, Repr

/-- One expansion step of game.rs `movegen` from a search node: the
candidate successor node with its cost, or `none` when the move is
obstructed (for rotations: when no kick candidate fits). Shared between
the search loop and the path semantics the spec's optimality property
quantifies over. -/
def stepMove (b : Board) (md sd : Nat) (s : QueueMove) :
    PMove → Option QueueMove
  | PMove.left =>
    if ({ s.loc with x := s.loc.x - 1 } : PieceLocation).obstructed b then
      none
    else some ⟨{ s.loc with x := s.loc.x - 1 }, Spin.None,
      ⟨u32 (s.cost.base + s.cost.softdrop + md), 0⟩⟩
  | PMove.right =>
    if ({ s.loc with x := s.loc.x + 1 } : PieceLocation).obstructed b then
      none
    else some ⟨{ s.loc with x := s.loc.x + 1 }, Spin.None,
      ⟨u32 (s.cost.base + s.cost.softdrop + md), 0⟩⟩
  | PMove.cw =>
    match firstKick b 0 (s.loc.rotate s.loc.rotation.cw) with
    | none => none
    | some (loc, i) => some ⟨loc, check_spin b loc i,
        ⟨u32 (s.cost.base + s.cost.softdrop + md), 0⟩⟩
  | PMove.ccw =>
    match firstKick b 0 (s.loc.rotate s.loc.rotation.ccw) with
    | none => none
    | some (loc, i) => some ⟨loc, check_spin b loc i,
        ⟨u32 (s.cost.base + s.cost.softdrop + md), 0⟩⟩
  | PMove.down =>
    if ({ s.loc with y := s.loc.y - 1 } : PieceLocation).obstructed b then
      none
    else some ⟨{ s.loc with y := s.loc.y - 1 }, Spin.None,
      ⟨s.cost.base, u32 (s.cost.softdrop + sd)⟩⟩

/-- Replace the value stored under a key of the output map. -/
def mapSet : List ((PieceLocation × Spin) × Nat) →
    (PieceLocation × Spin) → Nat → List ((PieceLocation × Spin) × Nat)
  | [], _, _ => []
  | (ek, ev) :: es, k, v =>
    if ek = k then (ek, v) :: mapSet es k v
    else (ek, ev) :: mapSet es k v

/-- game.rs `moves.entry(key).or_insert(u32::MAX); *mvcost =
mv.cost.base.min(*mvcost)`. -/
def mapInsertMin (m : List ((PieceLocation × Spin) × Nat))
    (k : PieceLocation × Spin) (v : Nat) :
    List ((PieceLocation × Spin) × Nat) :=
  match m.lookup k with
  | some w => mapSet m k (Nat.min v w)
  | none => m ++ [(k, Nat.min v MAXU32)]

/-- State of game.rs `movegen`'s best-first loop. `touched` is a ghost log
of every index used to read or write the 4800-entry `reached` vector, and
`done` records that the loop ended because the queue emptied (rather than
because the modelling fuel ran out). -/
structure MGState where
  reached : Nat → Cost
  queue : List QueueMove
  moves : List ((PieceLocation × Spin) × Nat)
  touched : List Nat
  done : Bool

/-- game.rs `movegen`'s `reach` closure: read the stored cost, and when the
candidate is strictly better under the reversed ordering (`mv.cost >
reached[index]`), store it and push the move. -/
def mgReach (st : MGState) (qm : QueueMove) : MGState :=
  if costCmp qm.cost (st.reached (mgIndex qm.loc qm.spin)) =
      Ordering.gt then
    { st with
        touched := st.touched ++ [mgIndex qm.loc qm.spin]
        reached := updateFn st.reached (mgIndex qm.loc qm.spin) qm.cost
        queue := qm :: st.queue }
  else { st with touched := st.touched ++ [mgIndex qm.loc qm.spin] }

/-- Expansion of one popped node: left, right, cw, ccw, then down; a
down-obstructed node is a lock candidate recorded into the output map under
its canonical form with its base cost. -/
def mgExpand (b : Board) (md sd : Nat) (mv : QueueMove) (st : MGState) :
    MGState :=
  let st := match stepMove b md sd mv PMove.left with
    | some q => mgReach st q
    | none => st
  let st := match stepMove b md sd mv PMove.right with
    | some q => mgReach st q
    | none => st
  let st := match stepMove b md sd mv PMove.cw with
    | some q => mgReach st q
    | none => st
  let st := match stepMove b md sd mv PMove.ccw with
    | some q => mgReach st q
    | none => st
  match stepMove b md sd mv PMove.down with
  | some q => mgReach st q
  | none =>
    { st with moves :=
        mapInsertMin st.moves (mv.loc.canonical_form, mv.spin) mv.cost.base }

/-- One iteration of the best-first loop on a popped move `mv` with
remaining queue `q`: log the stale-check read; skip the move if its cost no
longer matches `reached`, otherwise expand it. -/
def movegenStep (b : Board) (md sd : Nat) (st : MGState)
    (mv : QueueMove) (q : List QueueMove) : MGState :=
  if st.reached (mgIndex mv.loc mv.spin) ≠ mv.cost then
    { st with
        queue := q
        touched := st.touched ++ [mgIndex mv.loc mv.spin] }
  else
    mgExpand b md sd mv { st with
      queue := q
      touched := st.touched ++ [mgIndex mv.loc mv.spin] }

/-- The best-first loop of game.rs `movegen`: pop until the queue is
empty. -/
def movegenLoop (b : Board) (md sd : Nat) : Nat → MGState → MGState
  | 0, st => st
  | Nat.succ fuel, st =>
    match qmHeapPop st.queue with
    | none => { st with done := true }
    | some (mv, q) =>
      movegenLoop b md sd fuel (movegenStep b md sd st mv q)

/-- Spawn location of game.rs `movegen`: `(x=4, y=19)` North, with a single
fallback to `y=20`; `none` when both are obstructed. -/
def spawnLoc (b : Board) (piece : Piece) : Option PieceLocation :=
  if ({ piece := piece, rotation := Rotation.North, x := 4, y := 19 } :
      PieceLocation).obstructed b then
    if ({ piece := piece, rotation := Rotation.North, x := 4, y := 20 } :
        PieceLocation).obstructed b then none
    else some { piece := piece, rotation := Rotation.North, x := 4, y := 20 }
  else some { piece := piece, rotation := Rotation.North, x := 4, y := 19 }

/-- game.rs `Game::movegen` (the board is passed explicitly; `fuel` bounds
the number of loop iterations of the shallow embedding — the loop of the
source always terminates, and `done = true` records that the fuel was not
the binding constraint). -/
def movegen (fuel : Nat) (b : Board) (piece : Piece) (md sd : Nat) :
    MGState :=
  match spawnLoc b piece with
  | none => { reached := fun _ => ⟨MAXU32, 0⟩, queue := [], moves := [],
              touched := [], done := true }
  | some start =>
    let i := mgIndex start Spin.None
    movegenLoop b md sd fuel
      { reached := updateFn (fun _ => ⟨MAXU32, 0⟩) i ⟨0, 0⟩,
        queue := [⟨start, Spin.None, ⟨0, 0⟩⟩],
        moves := [], touched := [i], done := false }

/-- Run a sequence of expansion moves from a node (the transition sequences
quantified over by the spec's movegen-optimality property). -/
def runPath (b : Board) (md sd : Nat) (s : QueueMove) :
    List PMove → Option QueueMove
  | [] => some s
  | m :: p =>
    match stepMove b md sd s m with
    | none => none
    | some t => runPath b md sd t p

/-- Run a move sequence from the spawn node. -/
def runSpawnPath (b : Board) (piece : Piece) (md sd : Nat)
    (p : List PMove) : Option QueueMove :=
  (spawnLoc b piece).bind fun start =>
    runPath b md sd ⟨start, Spin.None, ⟨0, 0⟩⟩ p

/-- game.rs `Game`. -/
structure Game where
  board : Board
  queue : List Piece
  hold : Option Piece
  bag : List Piece
  combo : Nat
  back_to_back : Bool
  garbage_queue : List Garbage
  garbage_hole : Nat
deriving DecidableEq, Repr

/-- Timing fields of battle.rs `Delays` used by the game operations. -/
structure Delays where
  movement : Nat
  softdrop : Nat
  clear : List Nat
  pc : List Nat
deriving DecidableEq, Repr

/-- Attack fields of battle.rs `Garbage` (the config struct) used by the
game operations. `messiness` is a probability whose draws are modelled as an
explicit boolean stream, so the numeric field is not carried. -/
structure GarbageConfig where
  clear : List Nat
  mini : List Nat
  spin : List Nat
  back_to_back : Nat
  pc : List Nat
  pc_additive : Bool
  combo : List Nat
  change_on_attack : Bool
deriving DecidableEq, Repr

/-- battle.rs `BattleConfigRaw`, restricted to the fields game.rs reads. -/
structure Config where
  delays : Delays
  garbage : GarbageConfig
deriving DecidableEq, Repr

/-- A suggested move off the wire (tbp `Move`): `none` components model the
`try_from` conversions that fail and make `play_suggestion` skip the
candidate. -/
structure Move where
  location : Option PieceLocation
  spin : Option Spin
deriving DecidableEq, Repr

/-- game.rs `PlayedMove`. -/
structure PlayedMove where
  mv : Move
  clear : Bool
  placement_delay : Nat
  clear_delay : Nat
  garbage_sent : Nat
deriving DecidableEq, Repr

/-- The state mutation and attack computation game.rs `Game::play_suggestion`
performs on an accepted candidate: place the piece, pop the queue (twice,
with `hold = Some(next)`, in the swap branch guarded by `loc.piece == hold`),
then compute clear delay and garbage per section 4.5. -/
def applyMove (g : Game) (config : Config) (mv : Move)
    (loc : PieceLocation) (spin : Spin) (placement_delay : Nat) :
    PlayedMove × Game :=
  let next := g.queue.getD 0 Piece.I
  let hold := g.hold.getD (g.queue.getD 1 Piece.I)
  let res := g.board.place loc
  let cleared := res.1
  let queueA := g.queue.tail
  let queueB := if loc.piece = hold then
      (if g.hold = Option.none then queueA.tail else queueA)
    else queueA
  let holdB := if loc.piece = hold then some next else g.hold
  if cleared = 0 then
    ({ mv := mv, clear := decide (0 < cleared),
       placement_delay := placement_delay,
       clear_delay := 0, garbage_sent := 0 },
     { g with board := res.2, queue := queueB, hold := holdB, combo := 0 })
  else
    let is_hard : Bool := decide (spin ≠ Spin.None) || decide (cleared = 4)
    let clear_delay :=
      if res.2.is_pc then config.delays.pc.getD (cleared - 1) 0
      else config.delays.clear.getD (cleared - 1) 0
    let gs0 := match spin with
      | Spin.None => config.garbage.clear.getD (cleared - 1) 0
      | Spin.Mini => config.garbage.mini.getD (cleared - 1) 0
      | Spin.Full => config.garbage.spin.getD (cleared - 1) 0
    let gs1 := if g.back_to_back && is_hard then
        gs0 + config.garbage.back_to_back else gs0
    let gs2 := gs1 + config.garbage.combo.getD
      (Nat.min g.combo (config.garbage.combo.length - 1)) 0
    let gs3 := if res.2.is_pc then
        (if config.garbage.pc_additive then
          gs2 + config.garbage.pc.getD (cleared - 1) 0
        else config.garbage.pc.getD (cleared - 1) 0)
      else gs2
    ({ mv := mv, clear := decide (0 < cleared),
       placement_delay := placement_delay,
       clear_delay := clear_delay, garbage_sent := gs3 },
     { g with board := res.2, queue := queueB, hold := holdB,
              combo := g.combo + 1, back_to_back := is_hard })

/-- One candidate of the game.rs `Game::play_suggestion` loop: `none` for
each `continue` (parse failure, piece neither current nor swap, or location
and spin not in the movegen map), otherwise the accepted move's effect. -/
def tryMove (fuel : Nat) (g : Game) (config : Config) (mv : Move) :
    Option (PlayedMove × Game) :=
  match mv.location, mv.spin with
  | some loc0, some spin =>
    match g.queue with
    | next :: afterNext :: _ =>
      if loc0.canonical_form.piece = next ∨
          loc0.canonical_form.piece = g.hold.getD afterNext then
        match ((movegen fuel g.board loc0.canonical_form.piece
            config.delays.movement config.delays.softdrop).moves).lookup
            (loc0.canonical_form, spin) with
        | some placement_delay =>
          some (applyMove g config mv loc0.canonical_form spin
            placement_delay)
        | none => none
      else none
    | _ => none
  | _, _ => none

/-- game.rs `Game::play_suggestion`. Candidates are tried in order; parse
failures and unplayable candidates are skipped; the first candidate found
in the movegen map is applied to the state. The source caches the movegen
map per piece group across candidates (`next_moves` / `hold_moves`); the
map is a pure function of board and piece, so recomputing it per candidate
is semantically identical. The source indexes `queue[0]` and `queue[1]`
unconditionally and would panic on a queue shorter than 2; that case is
modelled as rejecting the candidates, leaving the state unchanged. -/
def play_suggestion (fuel : Nat) (g : Game) (config : Config) :
    List Move → Option PlayedMove × Game
  | [] => (none, g)
  | mv :: rest =>
    match tryMove fuel g config mv with
    | some r => (some r.1, r.2)
    | none => play_suggestion fuel g config rest

/-- Explicit streams standing for the `thread_rng()` draws of game.rs
`Game::add_garbage`: `bools` feeds `gen_bool(messiness)` outcomes, `nats`
feeds `gen_range(0..9)` outcomes. -/
structure Rng where
  bools : List Bool
  nats : List Nat
deriving DecidableEq, Repr

/-- Draw a `gen_bool` outcome (an exhausted stream repeats `false`). -/
def Rng.genBool : Rng → Bool × Rng
  | ⟨[], ns⟩ => (false, ⟨[], ns⟩)
  | ⟨x :: bs, ns⟩ => (x, ⟨bs, ns⟩)

/-- Draw a `gen_range(0..9)` outcome (an exhausted stream repeats `0`;
theorems carry the `< 9` range of the real draw as a hypothesis). -/
def Rng.genRange9 : Rng → Nat × Rng
  | ⟨bs, []⟩ => (0, ⟨bs, []⟩)
  | ⟨bs, x :: ns⟩ => (x, ⟨bs, ns⟩)

/-- The hole-change draw of game.rs `Game::add_garbage`: draw `h ∈ [0,9)`
and remap `h == hole` to 9. -/
def garbageHoleDraw (hole : Nat) (rng : Rng) : Nat × Rng :=
  (if rng.genRange9.1 = hole then 9 else rng.genRange9.1, rng.genRange9.2)

/-- Hole-column choice for one garbage row, game.rs `Game::add_garbage` loop
body: on the first row with `change_on_attack` (short-circuiting away the
messiness draw), or on a messiness draw, change the hole. -/
def garbageHoleStep (coa : Bool) (first : Bool) (hole : Nat) (rng : Rng) :
    Nat × Rng :=
  if first && coa then garbageHoleDraw hole rng
  else if rng.genBool.1 then garbageHoleDraw hole rng.genBool.2
  else (hole, rng.genBool.2)

/-- Hole columns for one pending-garbage entry of `amount` rows (`i` ranges
over `0..amount` as in the source's inner loop). -/
def genBlock (coa : Bool) (amount : Nat) (hole : Nat) (rng : Rng) :
    List Nat × Nat × Rng :=
  (List.range amount).foldl
    (fun acc i =>
      let hr := garbageHoleStep coa (i == 0) acc.2.1 acc.2.2
      (acc.1 ++ [hr.1], hr.1, hr.2))
    ([], hole, rng)

/-- The outer loop of game.rs `Game::add_garbage`: pop every head entry due
by `now` and generate its hole columns. Each emitted pair records the hole
column in effect immediately before the block alongside the block's
columns. -/
def addGarbageLoop (coa : Bool) (now : Nat) :
    List Garbage → Nat → Rng →
    List (Nat × List Nat) × Nat × Rng × List Garbage
  | [], hole, rng => ([], hole, rng, [])
  | g :: rest, hole, rng =>
    if now < g.add_time then ([], hole, rng, g :: rest)
    else
      let br := genBlock coa g.amount hole rng
      let tr := addGarbageLoop coa now rest br.2.1 br.2.2
      ((hole, br.1) :: tr.1, tr.2)

/-- game.rs `Game::add_garbage`: generate due hole columns, deposit them on
the board, return them with the new state and remaining randomness. -/
def Game.add_garbage (g : Game) (now : Nat) (coa : Bool) (rng : Rng) :
    List Nat × Game × Rng :=
  let r := addGarbageLoop coa now g.garbage_queue g.garbage_hole rng
  let added := (r.1.map Prod.snd).flatten
  (added,
   { g with board := g.board.add_garbage added,
            garbage_queue := r.2.2.2, garbage_hole := r.2.1 },
   r.2.2.1)

/-- game.rs `Game::counter_garbage` as a state operation. -/
def Game.counter_garbage (g : Game) (amount : Nat) : Nat × Game :=
  let r := counterGarbageQueue amount g.garbage_queue
  (r.1, { g with garbage_queue := r.2 })

/-- game.rs `Game::queue_garbage`. -/
def Game.queue_garbage (g : Game) (amount : Nat) (add_time : Nat) : Game :=
  { g with garbage_queue := g.garbage_queue ++
      [{ amount := amount, add_time := add_time }] }

/-- battle.rs `Side`. -/
inductive Side
  | Left | Right
deriving DecidableEq, Repr

/-- battle.rs `EventType`. -/
inductive EventType
  | PollMove (requested : Nat)
  | RequestMove
  | CheckGarbage
  | SendGarbage (amount : Nat)
deriving DecidableEq, Repr

/-- battle.rs `EventType::priority`. -/
def EventType.priority : EventType → Nat
  | EventType.PollMove _ => 3
  | EventType.RequestMove => 2
  | EventType.CheckGarbage => 1
  | EventType.SendGarbage _ => 0

/-- battle.rs `Event`. -/
structure Event where
  side : Side
  time : Nat
  event : EventType
deriving DecidableEq, Repr

/-- battle.rs `impl Ord for Event`: time ascending, then kind priority
ascending, then reversed for the max-heap. -/
def eventCmp (a b : Event) : Ordering :=
  ((compare a.time b.time).then
    (compare a.event.priority b.event.priority)).swap

/-- The event `BinaryHeap::pop` surfaces: a maximal element under
`eventCmp` (leftmost among ties; the tie order of the Rust heap is
unspecified). -/
def eventBest (x : Event) (q : List Event) : Event :=
  q.foldl (fun best c => if eventCmp c best = Ordering.gt then c else best) x

/-- Repeatedly popping the event heap, fuelled by the list length. -/
def popOrderGo : Nat → List Event → List Event
  | 0, _ => []
  | _, [] => []
  | Nat.succ n, x :: xs =>
    eventBest x xs :: popOrderGo n ((x :: xs).erase (eventBest x xs))

/-- The order in which the driver's event heap delivers a set of events. -/
def popOrder (l : List Event) : List Event := popOrderGo l.length l

/-- Non-strict delivery order the heap actually guarantees: earlier time,
or equal time and lower-or-equal kind priority. -/
def eventLe (a b : Event) : Prop :=
  a.time < b.time ∨ (a.time = b.time ∧ a.event.priority ≤ b.event.priority)

/-- Shorthand cell values for concrete boards. -/
def cG : CellColor := CellColor.Garbage

/-- Shorthand empty cell for concrete boards. -/
def cE : CellColor := CellColor.Empty

/-- A fully occupied garbage row. -/
def cFullRow : List CellColor := List.replicate 10 cG

/-- A garbage row with only column 9 open. -/
def cNineRow : List CellColor :=
  [cG, cG, cG, cG, cG, cG, cG, cG, cG, cE]

/-- Concrete board for the movegen cost counterexample: a small pocket
around the spawn point (rows 17-21), everything else occupied. -/
def cexBoard : Board := ⟨
  List.replicate 17 cFullRow ++
  [[cE, cE, cG, cG, cG, cG, cG, cG, cG, cG],
   [cG, cE, cE, cE, cE, cG, cG, cG, cG, cG],
   [cG, cE, cE, cE, cE, cE, cG, cG, cG, cG],
   [cG, cE, cE, cE, cE, cE, cG, cG, cG, cG],
   [cG, cG, cG, cG, cG, cE, cG, cG, cG, cG]] ++
  List.replicate 18 cFullRow⟩

/-- The move sequence witnessing a cheaper lock than the movegen map
records on `cexBoard`. -/
def cexPath : List PMove :=
  [PMove.left, PMove.left, PMove.down, PMove.cw, PMove.cw,
   PMove.right, PMove.right, PMove.cw]

/-- Concrete board for the play_suggestion corner case: the same pocket,
with column 9 open in the far rows so that no row is full and a placement
clears nothing. The T piece locks immediately at spawn. -/
def pocketBoard : Board := ⟨
  List.replicate 17 cNineRow ++
  [[cE, cE, cG, cG, cG, cG, cG, cG, cG, cG],
   [cG, cE, cE, cE, cE, cG, cG, cG, cG, cG],
   [cG, cE, cE, cE, cE, cE, cG, cG, cG, cG],
   [cG, cE, cE, cE, cE, cE, cG, cG, cG, cG],
   [cG, cG, cG, cG, cG, cE, cG, cG, cG, cG]] ++
  List.replicate 18 cNineRow⟩

/-- The empty board, data.rs `impl Default for Board`. -/
def Board.default : Board := ⟨List.replicate 40 emptyRow⟩

/-- A row is fully empty. -/
def rowEmpty (r : List CellColor) : Bool := r.all fun c => c = CellColor.Empty

/-- Every fully-empty row lies strictly above every non-empty row: for any
two rows in bottom-to-top order, if the lower one is empty then so is the
higher one. -/
def Board.compacted (b : Board) : Prop :=
  b.field.Pairwise fun r s => rowEmpty r = true → rowEmpty s = true

/-- The validation the spec requires of locations handed to `place`: all
four cells in range (section 4.1) and the location down-obstructed (the
lock condition the move generator guarantees). -/
def validPlacement (b : Board) (loc : PieceLocation) : Prop :=
  (∀ c ∈ loc.cells, 0 ≤ c.1 ∧ c.1 < 10 ∧ 0 ≤ c.2 ∧ c.2 < 40) ∧
  ({ loc with y := loc.y - 1 }).obstructed b = true

/-- Boards reachable from the empty board by the game's board operations:
placing a validated down-obstructed location, and depositing garbage rows
with in-range hole columns. -/
inductive Reachable : Board → Prop
  | empty : Reachable Board.default
  | place {b : Board} {loc : PieceLocation} : Reachable b →
      validPlacement b loc → Reachable (b.place loc).2
  | garbage {b : Board} {cols : List Nat} : Reachable b →
      (∀ c ∈ cols, c < 10) → Reachable (b.add_garbage cols)

/-- Cell lookup by raw row/column index. -/
def cellAt (b : Board) (j i : Nat) : Option CellColor :=
  (b.field.get? j).bind fun r => r.get? i

/-- Safety invariant of the movegen loop: every queued location is
unobstructed and every logged `reached` access index is in the vector's
bounds. -/
def MGInv (b : Board) (st : MGState) : Prop :=
  (∀ x ∈ st.queue, x.loc.obstructed b = false) ∧
  ∀ i ∈ st.touched, i < 4800

/-- Every member of the search queue is the endpoint of some transition
sequence from spawn. -/
def QueuePathInv (b : Board) (piece : Piece) (md sd : Nat)
    (q : List QueueMove) : Prop :=
  ∀ qm ∈ q, ∃ p, runSpawnPath b piece md sd p = some qm

/-- A map binding is realised: some transition sequence from spawn ends at
a down-obstructed node with the binding's canonical form, spin and base
cost. -/
def LockRealizes (b : Board) (piece : Piece) (md sd : Nat)
    (k : PieceLocation × Spin) (v : Nat) : Prop :=
  ∃ p qm,
    runSpawnPath b piece md sd p = some qm ∧
    ({ qm.loc with y := qm.loc.y - 1 } : PieceLocation).obstructed b =
      true ∧
    qm.loc.canonical_form = k.1 ∧ qm.spin = k.2 ∧ qm.cost.base = v

/-- Every binding of the output map is realised by some transition sequence
from spawn. -/
def MapPathInv (b : Board) (piece : Piece) (md sd : Nat)
    (m : List ((PieceLocation × Spin) × Nat)) : Prop :=
  ∀ k v, m.lookup k = some v → LockRealizes b piece md sd k v

/-- Concrete board for the T-spin labelling counterexample: both corners on
the pointing side of a North T centred at (4, 1) filled, plus one corner on
the opposite side. -/
def cexSpinBoard : Board := ⟨
  [[cE, cE, cE, cG, cE, cE, cE, cE, cE, cE],
   emptyRow,
   [cE, cE, cE, cG, cE, cG, cE, cE, cE, cE]] ++
  List.replicate 37 emptyRow⟩

/-- The T-piece location of the T-spin labelling counterexample. -/
def cexSpinLoc : PieceLocation :=
  { piece := Piece.T, rotation := Rotation.North, x := 4, y := 1 }

/-- Config used by the concrete play_suggestion evaluations: the `ppt`
preset delays restricted to the modelled fields. -/
def cexConfig : Config :=
  { delays := { movement := 2, softdrop := 3,
                clear := [36, 41, 41, 46], pc := [1, 1, 1, 1] },
    garbage := { clear := [0, 1, 2, 4], mini := [0, 1, 2],
                 spin := [2, 4, 6], back_to_back := 1,
                 pc := [10, 10, 10, 10], pc_additive := false,
                 combo := [0, 0, 1, 1, 2, 2, 3, 3, 4, 4, 4, 5],
                 change_on_attack := true } }

/-- Game state for the play_suggestion corner case: hold empty and the next
two queued pieces equal. -/
def cexGame : Game :=
  { board := pocketBoard, queue := [Piece.T, Piece.T], hold := none,
    bag := [], combo := 0, back_to_back := false, garbage_queue := [],
    garbage_hole := 0 }

/-- The on-the-spot lock suggestion for `cexGame`: place the current T at
its spawn location. -/
def cexSuggestedLoc : PieceLocation :=
  { piece := Piece.T, rotation := Rotation.North, x := 4, y := 19 }

/-- The single-candidate suggestion list containing that move. -/
def cexMoves : List Move :=
  [{ location := some cexSuggestedLoc, spin := some Spin.None }]

/-- Game state like `cexGame` but with a distinct piece held, used to
witness the amended play_suggestion claim. -/
def cexGameHold : Game :=
  { board := pocketBoard, queue := [Piece.T, Piece.T], hold := some Piece.J,
    bag := [], combo := 0, back_to_back := false, garbage_queue := [],
    garbage_hole := 0 }

/-- Expected accepted move for the `cexGameHold` witness run. -/
def cexPlayedHold : PlayedMove :=
  { mv := { location := some cexSuggestedLoc, spin := some Spin.None },
    clear := false, placement_delay := 0, clear_delay := 0,
    garbage_sent := 0 }

/-- Expected state after the `cexGameHold` witness run: one queue pop, hold
untouched. -/
def cexGameHoldAfter : Game :=
  { cexGameHold with
      board := (pocketBoard.place cexSuggestedLoc.canonical_form).2,
      queue := [Piece.T], combo := 0 }

/-! Theorems. -/

theorem garbageTotal_cons (g : Garbage) (q : List Garbage) :
    garbageTotal (g :: q) = g.amount + garbageTotal q := by
  simp [garbageTotal]

/-- C5: `counter_garbage` postcondition. Over `Nat`, `a - b` is truncated
subtraction, i.e. the claim's `max(0, a - b)`; the total consumed is
`min(a, T)`, so the residual `a - min(a, T)` equals `a - T` truncated. The
`consumedSuffix` conjunct expresses strict head-first consumption with no
entry amount ever increasing, and truncated subtraction throughout is the
absence of arithmetic underflow. -/
theorem counter_garbage_spec (amount : Nat) (q : List Garbage) :
    (counterGarbageQueue amount q).1 = amount - garbageTotal q ∧
    garbageTotal (counterGarbageQueue amount q).2 =
      garbageTotal q - amount ∧
    consumedSuffix q (counterGarbageQueue amount q).2 = true := by
  induction q generalizing amount with
  | nil => simp [counterGarbageQueue, garbageTotal, consumedSuffix]
  | cons g rest ih =>
    rw [counterGarbageQueue]
    by_cases h : g.amount ≤ amount
    · obtain ⟨ih1, ih2, ih3⟩ := ih (amount - g.amount)
      rw [if_pos h]
      refine ⟨?_, ?_, ?_⟩
      · rw [ih1, garbageTotal_cons]; omega
      · rw [ih2, garbageTotal_cons]; omega
      · cases hres : (counterGarbageQueue (amount - g.amount) rest).2 with
        | nil => rw [consumedSuffix]
        | cons r rs =>
          rw [hres] at ih3
          rw [consumedSuffix, ih3, Bool.or_true]
    · rw [if_neg h]
      refine ⟨?_, ?_, ?_⟩
      · simp [garbageTotal_cons]; omega
      · simp [garbageTotal_cons]; omega
      · rw [consumedSuffix]
        simp [Nat.sub_le]

/-- C1 (amended): `check_spin` classifies by corner counts with the two
corners on the pointing side of the T centre (rotated offsets (-1, 1) and
(1, 1), the side holding the T's fourth cell) as the *mini*-test corners:
fewer than 3 of the 4 corners gives `None`; otherwise fewer than 2 occupied
pointing-side corners with a kick index other than 4 gives `Mini`;
otherwise `Full`. Non-T pieces always give `None`. The spec's section 4.2
attaches the labels the other way round; see the counterexample. -/
theorem check_spin_corner_rule (b : Board) (loc : PieceLocation)
    (kick : Nat) :
    check_spin b loc kick =
      if loc.piece ≠ Piece.T then Spin.None
      else if tOppositeCorners b loc + tPointingCorners b loc < 3 then
        Spin.None
      else if tPointingCorners b loc < 2 ∧ kick ≠ 4 then Spin.Mini
      else Spin.Full := rfl

/-- C1 (counterexample): with both pointing-side corners and exactly one
opposite-side corner of an unobstructed T occupied and kick index 0, the
code returns `Full`, while the claim's labelling (pointing side = *norm*,
opposite side = *mini*) prescribes `Mini`. -/
theorem check_spin_label_counterexample :
    cexSpinLoc.obstructed cexSpinBoard = false ∧
    tPointingCorners cexSpinBoard cexSpinLoc = 2 ∧
    tOppositeCorners cexSpinBoard cexSpinLoc = 1 ∧
    check_spin cexSpinBoard cexSpinLoc 0 = Spin.Full ∧
    check_spin_spec_labels cexSpinBoard cexSpinLoc 0 = Spin.Mini := by
  refine ⟨rfl, rfl, rfl, rfl, rfl⟩

/-- C3 (amended): on a well-formed 40 x 10 board, `get` returns `true` for
every out-of-range read, including reads at `y >= 40`: the board is walled
on all four sides, not open above row 39. Coordinates range over the Rust
`i32`. -/
theorem board_get_out_of_range (b : Board) (x y : Int) (hWF : b.WF)
    (hx1 : -(2 ^ 31) ≤ x) (hx2 : x < 2 ^ 31)
    (hy1 : -(2 ^ 31) ≤ y) (hy2 : y < 2 ^ 31)
    (h : x < 0 ∨ 10 ≤ x ∨ y < 0 ∨ 40 ≤ y) : b.get x y = true := by
  unfold Board.get
  split
  case _ heq =>
    exfalso
    obtain ⟨r, hr, hx⟩ := Option.bind_eq_some.mp heq
    have hylen : usizeOfInt y < b.field.length := List.get?_eq_some.mp hr |>.1
    have hxlen : usizeOfInt x < r.length := List.get?_eq_some.mp hx |>.1
    have hrmem : r ∈ b.field := List.get?_mem hr
    rw [hWF.1] at hylen
    rw [hWF.2 r hrmem] at hxlen
    unfold usizeOfInt at hylen hxlen
    omega
  case _ => rfl

/-- C3 (counterexample): the claim says a read at `y >= 40` in an in-range
column behaves as empty (`false`); on the empty board, `get 0 40` returns
`true`. -/
theorem board_get_open_top_counterexample :
    ¬ (∀ (b : Board) (x y : Int), b.WF → 0 ≤ x → x < 10 → 40 ≤ y →
        b.get x y = false) := by
  intro h
  have h2 := h Board.default 0 40 (by decide) (by decide) (by decide)
    (by decide)
  exact absurd h2 (by decide)

/-- Witness for the amended C3 theorem at a concrete out-of-range read. -/
theorem board_get_out_of_range_witness :
    Board.default.get 0 40 = true :=
  board_get_out_of_range Board.default 0 40 (by decide) (by decide)
    (by decide) (by decide) (by decide) (by decide)

theorem eventCmp_eq_gt (a b : Event) :
    eventCmp a b = Ordering.gt ↔
      (a.time < b.time ∨
        (a.time = b.time ∧ a.event.priority < b.event.priority)) := by
  unfold eventCmp
  rcases Nat.lt_trichotomy a.time b.time with h | h | h
  · simp only [Nat.compare_eq_lt.mpr h, Ordering.then, Ordering.swap]
    simp; omega
  · rw [h]
    rcases Nat.lt_trichotomy a.event.priority b.event.priority with
      h2 | h2 | h2
    · simp only [Nat.compare_eq_eq.mpr rfl, Ordering.then,
        Nat.compare_eq_lt.mpr h2, Ordering.swap]
      simp; omega
    · simp only [Nat.compare_eq_eq.mpr rfl, Ordering.then,
        Nat.compare_eq_eq.mpr h2, Ordering.swap]
      simp; omega
    · simp only [Nat.compare_eq_eq.mpr rfl, Ordering.then,
        Nat.compare_eq_gt.mpr h2, Ordering.swap]
      simp; omega
  · simp only [Nat.compare_eq_gt.mpr h, Ordering.then, Ordering.swap]
    simp; omega

theorem eventBest_le (x : Event) (q : List Event) :
    eventBest x q ∈ x :: q ∧ ∀ y ∈ x :: q, eventLe (eventBest x q) y := by
  induction q generalizing x with
  | nil =>
    refine ⟨List.mem_singleton.mpr rfl, ?_⟩
    intro y hy
    rw [List.mem_singleton] at hy
    subst hy
    have h : eventBest y [] = y := rfl
    rw [h]
    unfold eventLe
    omega
  | cons c q ih =>
    have hstep : eventBest x (c :: q) =
        eventBest (if eventCmp c x = Ordering.gt then c else x) q := rfl
    rw [hstep]
    by_cases hcx : eventCmp c x = Ordering.gt
    · rw [if_pos hcx]
      obtain ⟨ihm, ihn⟩ := ih c
      rw [eventCmp_eq_gt] at hcx
      refine ⟨List.mem_cons_of_mem _ ihm, ?_⟩
      intro y hy
      rcases List.mem_cons.mp hy with hyx | hy2
      · have h1 := ihn c (List.mem_cons_self c q)
        subst hyx
        unfold eventLe at h1 ⊢
        omega
      · exact ihn y hy2
    · rw [if_neg hcx]
      obtain ⟨ihm, ihn⟩ := ih x
      rw [eventCmp_eq_gt] at hcx
      refine ⟨?_, ?_⟩
      · rcases List.mem_cons.mp ihm with h | h
        · rw [h]; exact List.mem_cons_self _ _
        · exact List.mem_cons_of_mem _ (List.mem_cons_of_mem _ h)
      · intro y hy
        rcases List.mem_cons.mp hy with hyx | hy2
        · subst hyx
          exact ihn y (List.mem_cons_self y q)
        rcases List.mem_cons.mp hy2 with hyc | hy3
        · have h1 := ihn x (List.mem_cons_self x q)
          subst hyc
          unfold eventLe at h1 ⊢
          omega
        · exact ihn y (List.mem_cons_of_mem _ hy3)

theorem popOrderGo_subset :
    ∀ (n : Nat) (l : List Event), ∀ y ∈ popOrderGo n l, y ∈ l := by
  intro n
  induction n with
  | zero => intro l y hy; simp [popOrderGo] at hy
  | succ n ih =>
    intro l y hy
    cases l with
    | nil => simp [popOrderGo] at hy
    | cons x xs =>
      rw [popOrderGo] at hy
      rcases List.mem_cons.mp hy with hyx | hy2
      · exact hyx ▸ (eventBest_le x xs).1
      · exact List.mem_of_mem_erase (ih _ y hy2)

/-- C8 (amended): the inverted `Ord` on `Event` makes the max-heap deliver
events in ascending (time, kind-priority) order: in the pop sequence, every
earlier-popped event has strictly smaller time, or equal time and
lower-or-equal kind priority, than every later-popped one. (The claim's
strict form fails on exact ties; see the counterexample.) -/
theorem event_heap_delivery_sorted (l : List Event) :
    (popOrder l).Pairwise eventLe := by
  unfold popOrder
  generalize hn : l.length = n
  clear hn
  induction n generalizing l with
  | zero => simp [popOrderGo]
  | succ n ih =>
    cases l with
    | nil => simp [popOrderGo]
    | cons x xs =>
      rw [popOrderGo]
      refine List.Pairwise.cons ?_ (ih _)
      intro y hy
      have hmem : y ∈ (x :: xs).erase (eventBest x xs) :=
        popOrderGo_subset n _ y hy
      exact (eventBest_le x xs).2 y (List.mem_of_mem_erase hmem)

/-- C8 (counterexample): the two initial `RequestMove` events share time
and kind priority; the first-popped one does not have strictly smaller
time, nor equal time with strictly lower priority, so the claim's strict
ordering fails on ties. -/
theorem event_pop_tie_counterexample :
    popOrder [⟨Side.Left, 180, EventType.RequestMove⟩,
        ⟨Side.Right, 180, EventType.RequestMove⟩] =
      [⟨Side.Left, 180, EventType.RequestMove⟩,
        ⟨Side.Right, 180, EventType.RequestMove⟩] ∧
    ¬ ((Event.mk Side.Left 180 EventType.RequestMove).time <
        (Event.mk Side.Right 180 EventType.RequestMove).time ∨
      ((Event.mk Side.Left 180 EventType.RequestMove).time =
          (Event.mk Side.Right 180 EventType.RequestMove).time ∧
        (Event.mk Side.Left 180 EventType.RequestMove).event.priority <
          (Event.mk Side.Right 180 EventType.RequestMove).event.priority)) :=
  ⟨rfl, by decide⟩

/-- C9: rejection is atomic. When `play_suggestion` accepts no candidate,
the returned state is the input state: board, piece queue, hold slot,
residual bag, combo counter, back-to-back flag, pending-garbage queue and
garbage-hole column are all unchanged. -/
theorem play_suggestion_rejection_atomic (fuel : Nat) (g : Game)
    (config : Config) (moves : List Move) (hq : 2 ≤ g.queue.length)
    (hres : (play_suggestion fuel g config moves).1 = none) :
    (play_suggestion fuel g config moves).2 = g := by
  clear hq
  induction moves with
  | nil => rfl
  | cons mv rest ih =>
    rw [play_suggestion] at hres ⊢
    generalize htm : tryMove fuel g config mv = tm at hres ⊢
    cases tm with
    | some r => simp at hres
    | none => exact ih hres

/-- Witness for the rejection-atomicity theorem: an empty suggestion list
on a concrete state with a 2-piece queue is rejected without any change. -/
theorem play_suggestion_rejection_atomic_witness :
    (play_suggestion 300 cexGame cexConfig []).2 = cexGame :=
  play_suggestion_rejection_atomic 300 cexGame cexConfig []
    (by decide) (by rfl)

theorem play_suggestion_accepted (fuel : Nat) (g : Game) (config : Config) :
    ∀ (moves : List Move) (pm : PlayedMove) (g' : Game),
      play_suggestion fuel g config moves = (some pm, g') →
      ∃ mv ∈ moves, tryMove fuel g config mv = some (pm, g') := by
  intro moves
  induction moves with
  | nil =>
    intro pm g' h
    rw [play_suggestion] at h
    simp at h
  | cons mv rest ih =>
    intro pm g' h
    rw [play_suggestion] at h
    generalize htm : tryMove fuel g config mv = tm at h
    cases tm with
    | some r =>
      refine ⟨mv, List.mem_cons_self _ _, ?_⟩
      have h1 : some r.1 = some pm := congrArg Prod.fst h
      have h2 : r.2 = g' := congrArg Prod.snd h
      rw [htm, show r = (pm, g') from Prod.ext (Option.some_inj.mp h1) h2]
    | none =>
      obtain ⟨mv', hmem, h'⟩ := ih pm g' h
      exact ⟨mv', List.mem_cons_of_mem _ hmem, h'⟩

theorem applyMove_fields (g : Game) (config : Config) (mv : Move)
    (loc : PieceLocation) (spin : Spin) (pd : Nat) :
    (applyMove g config mv loc spin pd).1.mv = mv ∧
    (applyMove g config mv loc spin pd).2.queue =
      (if loc.piece = g.hold.getD (g.queue.getD 1 Piece.I) then
        (if g.hold = Option.none then g.queue.tail.tail else g.queue.tail)
      else g.queue.tail) ∧
    (applyMove g config mv loc spin pd).2.hold =
      (if loc.piece = g.hold.getD (g.queue.getD 1 Piece.I) then
        some (g.queue.getD 0 Piece.I) else g.hold) := by
  by_cases hc : (g.board.place (loc)).1 = 0 <;>
    by_cases hp : loc.piece = g.hold.getD (g.queue.getD 1 Piece.I) <;>
    by_cases hh : g.hold = Option.none <;>
    simp [applyMove, hc, hp, hh]

theorem tryMove_some_inv (fuel : Nat) (g : Game) (config : Config)
    (mv : Move) (pm : PlayedMove) (g' : Game)
    (h : tryMove fuel g config mv = some (pm, g')) :
    ∃ loc0 spin pd, mv.location = some loc0 ∧ mv.spin = some spin ∧
      applyMove g config mv loc0.canonical_form spin pd = (pm, g') := by
  unfold tryMove at h
  split at h
  case _ loc0 spin heq1 heq2 =>
    split at h
    case _ next afterNext restq heq3 =>
      split at h
      case isTrue hcond =>
        split at h
        case _ pd heq4 =>
          exact ⟨loc0, spin, pd, heq1, heq2, Option.some_inj.mp h⟩
        case _ => exact absurd h (by simp)
      case isFalse => exact absurd h (by simp)
    case _ => exact absurd h (by simp)
  case _ => exact absurd h (by simp)

/-- C2 (amended): for every accepted candidate move whose piece equals the
current piece `queue[0]`, `play_suggestion` pops exactly the queue front
and leaves the hold slot unchanged, PROVIDED the hold slot is non-empty or
`queue[0] != queue[1]`. In the remaining corner case (hold empty and
`queue[0] = queue[1]`, so the current piece coincides with the swap piece)
the source's swap branch fires on a current-piece move: the queue is popped
twice and the hold slot is set to the current piece. -/
theorem play_suggestion_current_piece_effect (fuel : Nat) (g : Game)
    (config : Config) (moves : List Move) (pm : PlayedMove) (g' : Game)
    (q0 q1 : Piece) (qrest : List Piece) (loc0 : PieceLocation)
    (hq : g.queue = q0 :: q1 :: qrest)
    (hres : play_suggestion fuel g config moves = (some pm, g'))
    (hloc : pm.mv.location = some loc0)
    (hpiece : loc0.canonical_form.piece = q0) :
    ((g.hold ≠ none ∨ q0 ≠ q1) →
      g'.queue = q1 :: qrest ∧ g'.hold = g.hold) ∧
    (g.hold = none → q0 = q1 →
      g'.queue = qrest ∧ g'.hold = some q0) := by
  obtain ⟨mv, hmem, htm⟩ := play_suggestion_accepted fuel g config
    moves pm g' hres
  obtain ⟨loc0', spin, pd, hl, hs, happ⟩ := tryMove_some_inv fuel g config
    mv pm g' htm
  obtain ⟨hmv, hqueue, hhold⟩ := applyMove_fields g config mv
    loc0'.canonical_form spin pd
  rw [happ] at hmv hqueue hhold
  have hl0 : loc0' = loc0 := by
    rw [hmv] at hloc
    rw [hl] at hloc
    exact Option.some_inj.mp hloc
  subst hl0
  rw [hq] at hqueue hhold
  simp only [List.getD_cons_zero, List.getD_cons_succ,
    List.tail_cons] at hqueue hhold
  rw [hpiece] at hqueue hhold
  constructor
  · intro hside
    cases hh : g.hold with
    | some h =>
      rw [hh, Option.getD_some] at hqueue hhold
      by_cases hq0h : q0 = h
      · rw [if_pos hq0h] at hqueue hhold
        rw [if_neg (Option.some_ne_none h)] at hqueue
        exact ⟨hqueue, by rw [hhold, hq0h]⟩
      · rw [if_neg hq0h] at hqueue hhold
        exact ⟨hqueue, hhold⟩
    | none =>
      have hq01 : q0 ≠ q1 := by
        rcases hside with h1 | h1
        · exact absurd hh h1
        · exact h1
      rw [hh, Option.getD_none] at hqueue hhold
      rw [if_neg hq01] at hqueue hhold
      exact ⟨hqueue, hhold⟩
  · intro hh hq01
    rw [hh, Option.getD_none] at hqueue hhold
    rw [if_pos hq01] at hqueue hhold
    rw [if_pos rfl] at hqueue
    exact ⟨hqueue, hhold⟩

/-- Witness for the amended play_suggestion theorem: a concrete accepted
current-piece move with a distinct piece held pops exactly the queue front
and leaves the hold slot unchanged. -/
theorem play_suggestion_current_piece_effect_witness :
    ((cexGameHold.hold ≠ none ∨ Piece.T ≠ Piece.T) →
      cexGameHoldAfter.queue = [Piece.T] ∧
      cexGameHoldAfter.hold = cexGameHold.hold) ∧
    (cexGameHold.hold = none → Piece.T = Piece.T →
      cexGameHoldAfter.queue = [] ∧ cexGameHoldAfter.hold = some Piece.T) :=
  play_suggestion_current_piece_effect 300 cexGameHold cexConfig cexMoves
    cexPlayedHold cexGameHoldAfter Piece.T Piece.T [] cexSuggestedLoc
    rfl (by rfl) rfl rfl

/-- C2 (counterexample): on a state with hold empty and `queue = [T, T]`,
an accepted candidate whose piece equals the current piece makes the
source's swap branch fire: the queue is popped twice (becoming empty) and
the hold slot is set, contradicting the claim's "pops exactly one element
and leaves the hold slot unchanged ... in particular when the current piece
and the swap piece are the same kind". -/
theorem play_suggestion_double_pop_counterexample :
    cexGame.queue = [Piece.T, Piece.T] ∧ cexGame.hold = none ∧
    (play_suggestion 300 cexGame cexConfig cexMoves).1 = some
      { mv := { location := some cexSuggestedLoc, spin := some Spin.None },
        clear := false, placement_delay := 0, clear_delay := 0,
        garbage_sent := 0 } ∧
    cexSuggestedLoc.canonical_form.piece = Piece.T ∧
    (play_suggestion 300 cexGame cexConfig cexMoves).2.queue = [] ∧
    (play_suggestion 300 cexGame cexConfig cexMoves).2.hold =
      some Piece.T :=
  ⟨rfl, rfl, rfl, rfl, rfl, rfl⟩

theorem genBool_nats (r : Rng) : r.genBool.2.nats = r.nats := by
  cases r with
  | mk bools nats => cases bools <;> rfl

theorem genRange9_ok (r : Rng) (hok : ∀ n ∈ r.nats, n < 9) :
    r.genRange9.1 < 9 ∧ ∀ n ∈ r.genRange9.2.nats, n < 9 := by
  cases r with
  | mk bools nats =>
    cases nats with
    | nil =>
      refine ⟨?_, ?_⟩
      · show (0 : Nat) < 9
        decide
      · intro n hn
        simp [Rng.genRange9] at hn
    | cons x ns =>
      refine ⟨hok x (List.mem_cons_self _ _), ?_⟩
      intro n hn
      exact hok n (List.mem_cons_of_mem _ hn)

theorem garbageHoleDraw_changes (hole : Nat) (rng : Rng)
    (hok : ∀ n ∈ rng.nats, n < 9) :
    (garbageHoleDraw hole rng).1 ≠ hole ∧
    (∃ d, d < 9 ∧
      (garbageHoleDraw hole rng).1 = if d = hole then 9 else d) ∧
    ∀ n ∈ (garbageHoleDraw hole rng).2.nats, n < 9 := by
  have hd := (genRange9_ok rng hok).1
  have hfst : (garbageHoleDraw hole rng).1 =
      if rng.genRange9.1 = hole then 9 else rng.genRange9.1 := rfl
  refine ⟨?_, ⟨rng.genRange9.1, hd, hfst⟩, (genRange9_ok rng hok).2⟩
  rw [hfst]
  by_cases h : rng.genRange9.1 = hole
  · rw [if_pos h]
    omega
  · rw [if_neg h]
    exact h

theorem garbageHoleStep_nats (coa first : Bool) (hole : Nat) (rng : Rng)
    (hok : ∀ n ∈ rng.nats, n < 9) :
    ∀ n ∈ (garbageHoleStep coa first hole rng).2.nats, n < 9 := by
  unfold garbageHoleStep
  have hok2 : ∀ n ∈ rng.genBool.2.nats, n < 9 := by
    rw [genBool_nats rng]; exact hok
  by_cases h1 : (first && coa) = true
  · rw [if_pos h1]
    exact (garbageHoleDraw_changes hole rng hok).2.2
  · rw [if_neg h1]
    by_cases h2 : rng.genBool.1 = true
    · rw [if_pos h2]
      exact (garbageHoleDraw_changes hole rng.genBool.2 hok2).2.2
    · rw [if_neg h2]
      exact hok2

theorem garbageHoleStep_changes (hole : Nat) (rng : Rng)
    (hok : ∀ n ∈ rng.nats, n < 9) :
    (garbageHoleStep true true hole rng).1 ≠ hole ∧
    ∃ d, d < 9 ∧
      (garbageHoleStep true true hole rng).1 =
        if d = hole then 9 else d := by
  have h : garbageHoleStep true true hole rng = garbageHoleDraw hole rng :=
    rfl
  rw [h]
  exact ⟨(garbageHoleDraw_changes hole rng hok).1,
    (garbageHoleDraw_changes hole rng hok).2.1⟩

theorem genBlock_fold_invariant (coa : Bool) (l : List Nat) :
    ∀ (acc : List Nat × Nat × Rng),
      (∀ n ∈ acc.2.2.nats, n < 9) →
      (∀ n ∈ (l.foldl (fun acc i =>
          let hr := garbageHoleStep coa (i == 0) acc.2.1 acc.2.2
          (acc.1 ++ [hr.1], hr.1, hr.2)) acc).2.2.nats, n < 9) ∧
      (acc.1 ≠ [] → (l.foldl (fun acc i =>
          let hr := garbageHoleStep coa (i == 0) acc.2.1 acc.2.2
          (acc.1 ++ [hr.1], hr.1, hr.2)) acc).1.head? = acc.1.head?) := by
  induction l with
  | nil => intro acc hok; exact ⟨hok, fun _ => rfl⟩
  | cons i l ih =>
    intro acc hok
    rw [List.foldl_cons]
    obtain ⟨ih1, ih2⟩ := ih
      (acc.1 ++ [(garbageHoleStep coa (i == 0) acc.2.1 acc.2.2).1],
        (garbageHoleStep coa (i == 0) acc.2.1 acc.2.2).1,
        (garbageHoleStep coa (i == 0) acc.2.1 acc.2.2).2)
      (garbageHoleStep_nats coa (i == 0) acc.2.1 acc.2.2 hok)
    refine ⟨ih1, ?_⟩
    intro hne
    have hne2 :
        acc.1 ++ [(garbageHoleStep coa (i == 0) acc.2.1 acc.2.2).1] ≠ [] :=
      by simp
    exact (ih2 hne2).trans (List.head?_append_of_ne_nil acc.1 hne)

theorem genBlock_spec (amount hole : Nat) (rng : Rng)
    (hok : ∀ n ∈ rng.nats, n < 9) :
    (∀ n ∈ (genBlock true amount hole rng).2.2.nats, n < 9) ∧
    (∀ c, (genBlock true amount hole rng).1.head? = some c →
      c ≠ hole ∧ ∃ d, d < 9 ∧ c = if d = hole then 9 else d) := by
  cases amount with
  | zero =>
    refine ⟨hok, ?_⟩
    intro c hc
    simp [genBlock] at hc
  | succ n =>
    unfold genBlock
    rw [List.range_succ_eq_map, List.foldl_cons]
    have hacc : ∀ m ∈ (([(garbageHoleStep true ((0 : Nat) == 0) hole rng).1],
        (garbageHoleStep true ((0 : Nat) == 0) hole rng).1,
        (garbageHoleStep true ((0 : Nat) == 0) hole rng).2) :
          List Nat × Nat × Rng).2.2.nats, m < 9 :=
      garbageHoleStep_nats true ((0 : Nat) == 0) hole rng hok
    obtain ⟨h1, h2⟩ := genBlock_fold_invariant true
      (List.map Nat.succ (List.range n))
      ([(garbageHoleStep true ((0 : Nat) == 0) hole rng).1],
        (garbageHoleStep true ((0 : Nat) == 0) hole rng).1,
        (garbageHoleStep true ((0 : Nat) == 0) hole rng).2) hacc
    refine ⟨h1, ?_⟩
    intro c hc
    replace hc : (List.foldl (fun acc i =>
        let hr := garbageHoleStep true (i == 0) acc.2.1 acc.2.2
        (acc.1 ++ [hr.1], hr.1, hr.2))
      ([(garbageHoleStep true ((0 : Nat) == 0) hole rng).1],
        (garbageHoleStep true ((0 : Nat) == 0) hole rng).1,
        (garbageHoleStep true ((0 : Nat) == 0) hole rng).2)
      (List.map Nat.succ (List.range n))).1.head? = some c := hc
    rw [h2 (List.cons_ne_nil _ _)] at hc
    simp only [List.head?_cons, Option.some_inj] at hc
    have hch : garbageHoleStep true ((0 : Nat) == 0) hole rng =
        garbageHoleStep true true hole rng := rfl
    obtain ⟨hne, d, hd, heq⟩ := garbageHoleStep_changes hole rng hok
    rw [hch] at hc
    subst hc
    exact ⟨hne, d, hd, heq⟩

/-- C7: with `change_on_attack` enabled, for every outcome of the random
draws, the hole column of the first row of every deposited garbage block
differs from the hole column in effect immediately before that block (the
first component each loop iteration records), and that column is obtained
by drawing `d` in `[0,9)` and remapping it to 9 exactly when it equals the
prior hole. The flattened block columns are exactly what
`Game.add_garbage` deposits on the board and returns. -/
theorem add_garbage_hole_change (now hole : Nat) (q : List Garbage)
    (rng : Rng) (g : Game) (hok : ∀ n ∈ rng.nats, n < 9) :
    (∀ pr ∈ (addGarbageLoop true now q hole rng).1, ∀ c,
      pr.2.head? = some c →
      c ≠ pr.1 ∧ ∃ d, d < 9 ∧ c = if d = pr.1 then 9 else d) ∧
    (Game.add_garbage g now true rng).1 =
      ((addGarbageLoop true now g.garbage_queue g.garbage_hole
        rng).1.map Prod.snd).flatten := by
  refine ⟨?_, rfl⟩
  induction q generalizing hole rng with
  | nil => intro pr hpr; simp [addGarbageLoop] at hpr
  | cons entry rest ih =>
    intro pr hpr c hc
    rw [addGarbageLoop] at hpr
    split at hpr
    · simp at hpr
    · obtain ⟨hnats, hhead⟩ := genBlock_spec entry.amount hole rng hok
      rcases List.mem_cons.mp hpr with hpr1 | hpr2
      · subst hpr1
        exact hhead c hc
      · exact ih _ _ hnats pr hpr2 c hc

/-- Witness for the hole-change theorem at a concrete two-row attack. -/
theorem add_garbage_hole_change_witness :
    (∀ pr ∈ (addGarbageLoop true 0 [⟨0, 2⟩] 3 ⟨[], [5, 7]⟩).1, ∀ c,
      pr.2.head? = some c →
      c ≠ pr.1 ∧ ∃ d, d < 9 ∧ c = if d = pr.1 then 9 else d) ∧
    (Game.add_garbage cexGame 0 true ⟨[], [5, 7]⟩).1 =
      ((addGarbageLoop true 0 cexGame.garbage_queue cexGame.garbage_hole
        ⟨[], [5, 7]⟩).1.map Prod.snd).flatten :=
  add_garbage_hole_change 0 3 [⟨0, 2⟩] ⟨[], [5, 7]⟩ cexGame (by decide)

theorem mem_cells_self (l : PieceLocation) :
    ((l.x, l.y) : Int × Int) ∈ l.cells := by
  unfold PieceLocation.cells
  refine List.mem_map.mpr ⟨(0, 0), List.mem_map.mpr ⟨(0, 0), ?_, ?_⟩, by simp⟩
  · cases l.piece <;> simp [Piece.cells]
  · cases l.rotation <;> rfl

theorem get_false_bounds {b : Board} {x y : Int} (hWF : b.WF)
    (h : b.get x y = false) :
    usizeOfInt x < 10 ∧ usizeOfInt y < 40 := by
  unfold Board.get at h
  split at h
  case _ heq =>
    obtain ⟨r, hr, hx⟩ := Option.bind_eq_some.mp heq
    have h1 := (List.get?_eq_some.mp hr).1
    have h2 := (List.get?_eq_some.mp hx).1
    rw [hWF.1] at h1
    rw [hWF.2 r (List.get?_mem hr)] at h2
    exact ⟨h2, h1⟩
  case _ => simp at h

theorem obstructed_false_get {b : Board} {l : PieceLocation}
    (h : l.obstructed b = false) : b.get l.x l.y = false := by
  unfold PieceLocation.obstructed at h
  rw [List.any_eq_false] at h
  have := h (l.x, l.y) (mem_cells_self l)
  exact Bool.eq_false_iff.mpr this

theorem rotIdx_bounds (r : Rotation) : 0 ≤ rotIdx r ∧ rotIdx r ≤ 3 := by
  cases r <;> simp [rotIdx]

theorem spinIdx_bounds (s : Spin) : 0 ≤ spinIdx s ∧ spinIdx s ≤ 2 := by
  cases s <;> simp [spinIdx]

theorem usize_lin_bound (r s x y : Int) (hr0 : 0 ≤ r) (hr3 : r ≤ 3)
    (hs0 : 0 ≤ s) (hs2 : s ≤ 2)
    (hx : (x % 2 ^ 64).toNat < 10) (hy : (y % 2 ^ 64).toNat < 40) :
    ((r + 4 * x + 40 * s + 120 * y) % 2 ^ 64).toNat < 4800 := by
  have hxm := Int.emod_nonneg x (by norm_num : ((2 : Int) ^ 64) ≠ 0)
  have hym := Int.emod_nonneg y (by norm_num : ((2 : Int) ^ 64) ≠ 0)
  have hxlt : x % 2 ^ 64 < 10 := by omega
  have hylt : y % 2 ^ 64 < 40 := by omega
  have hmx : Int.ModEq (2 ^ 64) (x % 2 ^ 64) x :=
    Int.emod_emod_of_dvd x dvd_rfl
  have hmy : Int.ModEq (2 ^ 64) (y % 2 ^ 64) y :=
    Int.emod_emod_of_dvd y dvd_rfl
  have hcong : Int.ModEq (2 ^ 64)
      (r + 4 * (x % 2 ^ 64) + 40 * s + 120 * (y % 2 ^ 64))
      (r + 4 * x + 40 * s + 120 * y) :=
    (((Int.ModEq.refl r).add (hmx.mul_left 4)).add
      (Int.ModEq.refl (40 * s))).add (hmy.mul_left 120)
  have heq : (r + 4 * x + 40 * s + 120 * y) % 2 ^ 64 =
      (r + 4 * (x % 2 ^ 64) + 40 * s + 120 * (y % 2 ^ 64)) % 2 ^ 64 :=
    hcong.symm
  have hsmall : (r + 4 * (x % 2 ^ 64) + 40 * s + 120 * (y % 2 ^ 64)) %
      2 ^ 64 = r + 4 * (x % 2 ^ 64) + 40 * s + 120 * (y % 2 ^ 64) :=
    Int.emod_eq_of_lt (by omega) (by omega)
  rw [heq, hsmall]
  omega

theorem mgIndex_lt (loc : PieceLocation) (spin : Spin)
    (h1 : usizeOfInt loc.x < 10) (h2 : usizeOfInt loc.y < 40) :
    mgIndex loc spin < 4800 := by
  unfold usizeOfInt at h1 h2
  unfold mgIndex usizeOfInt
  exact usize_lin_bound (rotIdx loc.rotation) (spinIdx spin) loc.x loc.y
    (rotIdx_bounds _).1 (rotIdx_bounds _).2 (spinIdx_bounds _).1
    (spinIdx_bounds _).2 h1 h2

theorem firstKick_unobstructed {b : Board} :
    ∀ {i : Nat} {ls : List PieceLocation} {loc : PieceLocation} {k : Nat},
      firstKick b i ls = some (loc, k) → loc.obstructed b = false := by
  intro i ls
  induction ls generalizing i with
  | nil => intro loc k h; simp [firstKick] at h
  | cons l ls ih =>
    intro loc k h
    unfold firstKick at h
    split at h
    · exact ih h
    case _ hobs =>
      have h1 : l = loc := congrArg Prod.fst (Option.some_inj.mp h)
      rw [← h1]
      exact Bool.eq_false_iff.mpr hobs

theorem stepMove_unobstructed {b : Board} {md sd : Nat} {s q : QueueMove}
    {m : PMove} (h : stepMove b md sd s m = some q) :
    q.loc.obstructed b = false := by
  cases m with
  | left =>
    simp only [stepMove] at h
    split at h
    case isTrue => simp at h
    case isFalse hobs =>
      rw [← Option.some_inj.mp h]
      exact Bool.eq_false_iff.mpr hobs
  | right =>
    simp only [stepMove] at h
    split at h
    case isTrue => simp at h
    case isFalse hobs =>
      rw [← Option.some_inj.mp h]
      exact Bool.eq_false_iff.mpr hobs
  | cw =>
    simp only [stepMove] at h
    split at h
    case _ => simp at h
    case _ loc k heq =>
      rw [← Option.some_inj.mp h]
      exact firstKick_unobstructed heq
  | ccw =>
    simp only [stepMove] at h
    split at h
    case _ => simp at h
    case _ loc k heq =>
      rw [← Option.some_inj.mp h]
      exact firstKick_unobstructed heq
  | down =>
    simp only [stepMove] at h
    split at h
    case isTrue => simp at h
    case isFalse hobs =>
      rw [← Option.some_inj.mp h]
      exact Bool.eq_false_iff.mpr hobs

theorem mgReach_inv {b : Board} (hWF : b.WF) {st : MGState}
    {qm : QueueMove} (hst : MGInv b st)
    (hqm : qm.loc.obstructed b = false) : MGInv b (mgReach st qm) := by
  have hb := get_false_bounds hWF (obstructed_false_get hqm)
  have hidx : mgIndex qm.loc qm.spin < 4800 := mgIndex_lt _ _ hb.1 hb.2
  unfold mgReach
  split
  · refine ⟨?_, ?_⟩
    · intro x hx
      rcases List.mem_cons.mp hx with h | h
      · rw [h]; exact hqm
      · exact hst.1 x h
    · intro i hi
      rcases List.mem_append.mp hi with h | h
      · exact hst.2 i h
      · rw [List.mem_singleton.mp h]; exact hidx
  · refine ⟨hst.1, ?_⟩
    intro i hi
    rcases List.mem_append.mp hi with h | h
    · exact hst.2 i h
    · rw [List.mem_singleton.mp h]; exact hidx

theorem mgExpand_inv {b : Board} (hWF : b.WF) {md sd : Nat}
    {mv : QueueMove} {st : MGState} (hst : MGInv b st) :
    MGInv b (mgExpand b md sd mv st) := by
  unfold mgExpand
  have step : ∀ (st' : MGState) (m : PMove), MGInv b st' →
      MGInv b (match stepMove b md sd mv m with
        | some q => mgReach st' q
        | none => st') := by
    intro st' m h
    cases hs : stepMove b md sd mv m with
    | some q => exact mgReach_inv hWF h (stepMove_unobstructed hs)
    | none => exact h
  have h1 := step st PMove.left hst
  have h2 := step _ PMove.right h1
  have h3 := step _ PMove.cw h2
  have h4 := step _ PMove.ccw h3
  cases hs : stepMove b md sd mv PMove.down with
  | some q => exact mgReach_inv hWF h4 (stepMove_unobstructed hs)
  | none => exact ⟨h4.1, h4.2⟩

theorem qmBest_mem (x : QueueMove) (q : List QueueMove) :
    qmBest x q ∈ x :: q := by
  induction q generalizing x with
  | nil => exact List.mem_singleton.mpr rfl
  | cons c q ih =>
    have hstep : qmBest x (c :: q) =
        qmBest (if costCmp c.cost x.cost = Ordering.gt then c else x) q :=
      rfl
    rw [hstep]
    by_cases h : costCmp c.cost x.cost = Ordering.gt
    · rw [if_pos h]
      exact List.mem_cons_of_mem _ (ih c)
    · rw [if_neg h]
      rcases List.mem_cons.mp (ih x) with h2 | h2
      · rw [h2]; exact List.mem_cons_self _ _
      · exact List.mem_cons_of_mem _ (List.mem_cons_of_mem _ h2)

theorem qmHeapPop_spec {q : List QueueMove} {mv : QueueMove}
    {rest : List QueueMove} (h : qmHeapPop q = some (mv, rest)) :
    mv ∈ q ∧ ∀ x ∈ rest, x ∈ q := by
  cases q with
  | nil => simp [qmHeapPop] at h
  | cons a as =>
    unfold qmHeapPop at h
    have h1 : qmBest a as = mv :=
      congrArg Prod.fst (Option.some_inj.mp h)
    have h2 : (a :: as).erase (qmBest a as) = rest :=
      congrArg Prod.snd (Option.some_inj.mp h)
    subst h1
    subst h2
    exact ⟨qmBest_mem a as, fun x hx => List.mem_of_mem_erase hx⟩

theorem movegenStep_inv {b : Board} (hWF : b.WF) {md sd : Nat}
    {st : MGState} {mv : QueueMove} {q : List QueueMove} (hinv : MGInv b st)
    (hmv : mv.loc.obstructed b = false)
    (hsub : ∀ x ∈ q, x ∈ st.queue) :
    MGInv b (movegenStep b md sd st mv q) := by
  have hb := get_false_bounds hWF (obstructed_false_get hmv)
  have hidx : mgIndex mv.loc mv.spin < 4800 := mgIndex_lt _ _ hb.1 hb.2
  have hst2 : MGInv b { st with
      queue := q
      touched := st.touched ++ [mgIndex mv.loc mv.spin] } := by
    refine ⟨fun x hx => hinv.1 x (hsub x hx), ?_⟩
    intro i hi
    rcases List.mem_append.mp hi with h2 | h2
    · exact hinv.2 i h2
    · rw [List.mem_singleton.mp h2]; exact hidx
  unfold movegenStep
  split
  · exact hst2
  · exact mgExpand_inv hWF hst2

theorem movegenLoop_inv {b : Board} (hWF : b.WF) {md sd : Nat} :
    ∀ (fuel : Nat) (st : MGState), MGInv b st →
      MGInv b (movegenLoop b md sd fuel st) := by
  intro fuel
  induction fuel with
  | zero => intro st h; exact h
  | succ fuel ih =>
    intro st h
    rw [movegenLoop]
    generalize hpop : qmHeapPop st.queue = p
    cases p with
    | none => exact h
    | some mq =>
      obtain ⟨mv, q⟩ := mq
      obtain ⟨hmem, hsub⟩ := qmHeapPop_spec hpop
      exact ih _ (movegenStep_inv hWF h (h.1 mv hmem) hsub)

/-- C10: movegen index safety. Every unobstructed location (over `i32`
coordinates) lies in `0 <= x < 10`, `0 <= y < 40`, because each piece's
rotated footprint contains the offset (0, 0) and every out-of-range read of
`get` counts as obstructed; the `reached` index of any unobstructed
location is below 4800; and every index the loop ever uses to read or
write the 4800-entry `reached` vector (the ghost `touched` log: the spawn
write, the stale-check read of each popped move, and the read/write of each
proposed successor, all of which are checked unobstructed first) is below
4800, for any board, piece, delays and fuel — so the search never indexes
out of bounds. -/
theorem movegen_index_safety :
    (∀ (b : Board) (loc : PieceLocation), b.WF →
      -(2 ^ 31) ≤ loc.x → loc.x < 2 ^ 31 →
      -(2 ^ 31) ≤ loc.y → loc.y < 2 ^ 31 →
      loc.obstructed b = false →
      0 ≤ loc.x ∧ loc.x < 10 ∧ 0 ≤ loc.y ∧ loc.y < 40) ∧
    (∀ (b : Board) (loc : PieceLocation) (spin : Spin), b.WF →
      loc.obstructed b = false → mgIndex loc spin < 4800) ∧
    (∀ (fuel : Nat) (b : Board) (piece : Piece) (md sd : Nat), b.WF →
      ∀ i ∈ (movegen fuel b piece md sd).touched, i < 4800) := by
  refine ⟨?_, ?_, ?_⟩
  · intro b loc hWF hx1 hx2 hy1 hy2 hobs
    obtain ⟨h1, h2⟩ := get_false_bounds hWF (obstructed_false_get hobs)
    unfold usizeOfInt at h1 h2
    omega
  · intro b loc spin hWF hobs
    obtain ⟨h1, h2⟩ := get_false_bounds hWF (obstructed_false_get hobs)
    exact mgIndex_lt loc spin h1 h2
  · intro fuel b piece md sd hWF
    unfold movegen
    generalize hsp : spawnLoc b piece = sp
    cases sp with
    | none => intro i hi; simp at hi
    | some start =>
      have hstart : start.obstructed b = false := by
        unfold spawnLoc at hsp
        split at hsp
        · split at hsp
          · simp at hsp
          case _ hobs =>
            rw [← Option.some_inj.mp hsp]
            exact Bool.eq_false_iff.mpr hobs
        case _ hobs =>
          rw [← Option.some_inj.mp hsp]
          exact Bool.eq_false_iff.mpr hobs
      have hb := get_false_bounds hWF (obstructed_false_get hstart)
      have hidx := mgIndex_lt start Spin.None hb.1 hb.2
      have hinit : MGInv b
          { reached := updateFn (fun _ => ⟨MAXU32, 0⟩)
              (mgIndex start Spin.None) ⟨0, 0⟩,
            queue := [⟨start, Spin.None, ⟨0, 0⟩⟩],
            moves := [], touched := [mgIndex start Spin.None],
            done := false } := by
        refine ⟨?_, ?_⟩
        · intro x hx
          rw [List.mem_singleton.mp hx]
          exact hstart
        · intro i hi
          rw [List.mem_singleton.mp hi]
          exact hidx
      exact (movegenLoop_inv hWF fuel _ hinit).2

/-- Witness for the index-safety theorem on concrete inputs. -/
theorem movegen_index_safety_witness :
    (0 ≤ (4 : Int) ∧ (4 : Int) < 10 ∧ 0 ≤ (19 : Int) ∧ (19 : Int) < 40) ∧
    mgIndex ⟨Piece.T, Rotation.North, 4, 19⟩ Spin.None < 4800 ∧
    (∀ i ∈ (movegen 3 Board.default Piece.T 2 3).touched, i < 4800) :=
  ⟨movegen_index_safety.1 Board.default
      ⟨Piece.T, Rotation.North, 4, 19⟩ (by decide) (by decide) (by decide)
      (by decide) (by decide) (by decide),
   movegen_index_safety.2.1 Board.default
      ⟨Piece.T, Rotation.North, 4, 19⟩ Spin.None (by decide) (by decide),
   movegen_index_safety.2.2 3 Board.default Piece.T 2 3 (by decide)⟩

theorem runPath_snoc (b : Board) (md sd : Nat) :
    ∀ (p : List PMove) (s : QueueMove) (m : PMove),
      runPath b md sd s (p ++ [m]) =
        (runPath b md sd s p).bind fun t => stepMove b md sd t m := by
  intro p
  induction p with
  | nil =>
    intro s m
    show runPath b md sd s [m] = stepMove b md sd s m
    cases hs : stepMove b md sd s m <;> simp [runPath, hs]
  | cons m0 p ih =>
    intro s m
    rw [List.cons_append]
    unfold runPath
    cases hs : stepMove b md sd s m0 with
    | none => simp
    | some t => exact ih t m

theorem runSpawnPath_snoc {b : Board} {piece : Piece} {md sd : Nat}
    {p : List PMove} {qm : QueueMove}
    (h : runSpawnPath b piece md sd p = some qm) (m : PMove)
    {q' : QueueMove} (hs : stepMove b md sd qm m = some q') :
    runSpawnPath b piece md sd (p ++ [m]) = some q' := by
  unfold runSpawnPath at h ⊢
  cases hsp : spawnLoc b piece with
  | none =>
    rw [hsp] at h
    simp at h
  | some start =>
    rw [hsp] at h
    simp only [Option.some_bind] at h
    simp only [Option.some_bind]
    rw [runPath_snoc, h]
    simpa using hs

theorem stepMove_cost_bounds {b : Board} {md sd : Nat} {s q : QueueMove}
    {m : PMove} (hbase : s.cost.base < 2 ^ 32)
    (h : stepMove b md sd s m = some q) :
    q.cost.base < 2 ^ 32 ∧ q.cost.softdrop < 2 ^ 32 := by
  have hu : ∀ n, u32 n < 2 ^ 32 := fun n => Nat.mod_lt _ (by norm_num)
  cases m <;> simp only [stepMove] at h
  case left =>
    split at h
    case isTrue => simp at h
    case isFalse =>
      rw [← Option.some_inj.mp h]
      exact ⟨hu _, by norm_num⟩
  case right =>
    split at h
    case isTrue => simp at h
    case isFalse =>
      rw [← Option.some_inj.mp h]
      exact ⟨hu _, by norm_num⟩
  case cw =>
    split at h
    case _ => simp at h
    case _ =>
      rw [← Option.some_inj.mp h]
      exact ⟨hu _, by norm_num⟩
  case ccw =>
    split at h
    case _ => simp at h
    case _ =>
      rw [← Option.some_inj.mp h]
      exact ⟨hu _, by norm_num⟩
  case down =>
    split at h
    case isTrue => simp at h
    case isFalse =>
      rw [← Option.some_inj.mp h]
      exact ⟨hbase, hu _⟩

theorem runPath_cost_bounds {b : Board} {md sd : Nat} :
    ∀ (p : List PMove) (s qm : QueueMove), s.cost.base < 2 ^ 32 →
      runPath b md sd s p = some qm → qm.cost.base < 2 ^ 32 := by
  intro p
  induction p with
  | nil =>
    intro s qm hb hr
    rw [← Option.some_inj.mp hr]
    exact hb
  | cons m p ih =>
    intro s qm hb hr
    unfold runPath at hr
    generalize hs : stepMove b md sd s m = t at hr
    cases t with
    | none => simp at hr
    | some t' => exact ih t' qm (stepMove_cost_bounds hb hs).1 hr

theorem runSpawnPath_cost_bounds {b : Board} {piece : Piece} {md sd : Nat}
    {p : List PMove} {qm : QueueMove}
    (h : runSpawnPath b piece md sd p = some qm) :
    qm.cost.base < 2 ^ 32 := by
  unfold runSpawnPath at h
  cases hsp : spawnLoc b piece with
  | none => rw [hsp] at h; simp at h
  | some start =>
    rw [hsp] at h
    simp only [Option.some_bind] at h
    exact runPath_cost_bounds p _ qm (by norm_num) h

theorem stepMove_down_none {b : Board} {md sd : Nat} {s : QueueMove}
    (h : stepMove b md sd s PMove.down = none) :
    ({ s.loc with y := s.loc.y - 1 } : PieceLocation).obstructed b =
      true := by
  simp only [stepMove] at h
  split at h
  case isTrue hobs => exact hobs
  case isFalse => simp at h

theorem lookup_mapSet_self {m : List ((PieceLocation × Spin) × Nat)}
    {k : PieceLocation × Spin} {w : Nat}
    (h : m.lookup k = some w) (v : Nat) :
    (mapSet m k v).lookup k = some v := by
  induction m with
  | nil => simp [List.lookup] at h
  | cons e es ih =>
    obtain ⟨ek, ev⟩ := e
    by_cases hek : ek = k
    · subst hek
      rw [mapSet, if_pos rfl]
      simp [List.lookup]
    · have hbeq : (k == ek) = false := by
        simp
        exact fun hc => hek hc.symm
      rw [List.lookup, hbeq] at h
      rw [mapSet, if_neg hek, List.lookup, hbeq]
      exact ih h

theorem lookup_mapSet_other {m : List ((PieceLocation × Spin) × Nat)}
    {k k' : PieceLocation × Spin} (hk : k' ≠ k) (v : Nat) :
    (mapSet m k v).lookup k' = m.lookup k' := by
  induction m with
  | nil => rfl
  | cons e es ih =>
    obtain ⟨ek, ev⟩ := e
    by_cases hek : ek = k
    · subst hek
      have hbeq : (k' == ek) = false := by
        simp
        exact fun hc => hk hc
      rw [mapSet, if_pos rfl, List.lookup, List.lookup, hbeq]
      exact ih
    · rw [mapSet, if_neg hek, List.lookup, List.lookup]
      cases hbeq : (k' == ek)
      · exact ih
      · rfl

theorem lookup_append_of_ne {m : List ((PieceLocation × Spin) × Nat)}
    {k k' : PieceLocation × Spin} {v : Nat} (hk : k' ≠ k) :
    (m ++ [(k, v)]).lookup k' = m.lookup k' := by
  induction m with
  | nil =>
    have hbeq : (k' == k) = false := by
      simp
      exact fun hc => hk hc
    simp [List.lookup, hbeq]
  | cons e es ih =>
    obtain ⟨ek, ev⟩ := e
    rw [List.cons_append, List.lookup, List.lookup]
    cases hbeq : (k' == ek)
    · exact ih
    · rfl

theorem lookup_append_self {m : List ((PieceLocation × Spin) × Nat)}
    {k : PieceLocation × Spin} {v : Nat} (h : m.lookup k = none) :
    (m ++ [(k, v)]).lookup k = some v := by
  induction m with
  | nil => simp [List.lookup]
  | cons e es ih =>
    obtain ⟨ek, ev⟩ := e
    rw [List.lookup] at h
    rw [List.cons_append, List.lookup]
    cases hbeq : (k == ek)
    · rw [hbeq] at h
      exact ih h
    · rw [hbeq] at h
      simp at h

theorem mapInsertMin_sound {b : Board} {piece : Piece} {md sd : Nat}
    {m : List ((PieceLocation × Spin) × Nat)}
    (hm : MapPathInv b piece md sd m) {k : PieceLocation × Spin} {v : Nat}
    (hv : LockRealizes b piece md sd k v) (hvMAX : v ≤ MAXU32) :
    MapPathInv b piece md sd (mapInsertMin m k v) := by
  intro k' v' h'
  unfold mapInsertMin at h'
  cases hl : m.lookup k with
  | some w =>
    rw [hl] at h'
    by_cases hk : k' = k
    · subst hk
      rw [lookup_mapSet_self hl] at h'
      have hv' : v' = Nat.min v w := (Option.some_inj.mp h').symm
      subst hv'
      rcases Nat.le_total v w with hle | hle
      · have hmin : Nat.min v w = v := Nat.min_eq_left hle
        rw [hmin]
        exact hv
      · have hmin : Nat.min v w = w := Nat.min_eq_right hle
        rw [hmin]
        exact hm k' w hl
    · rw [lookup_mapSet_other hk] at h'
      exact hm k' v' h'
  | none =>
    rw [hl] at h'
    by_cases hk : k' = k
    · subst hk
      rw [lookup_append_self hl] at h'
      have hv' : v' = Nat.min v MAXU32 := (Option.some_inj.mp h').symm
      subst hv'
      have hmin : Nat.min v MAXU32 = v := Nat.min_eq_left hvMAX
      rw [hmin]
      exact hv
    · rw [lookup_append_of_ne hk] at h'
      exact hm k' v' h'

theorem mgReach_moves (st : MGState) (qm : QueueMove) :
    (mgReach st qm).moves = st.moves := by
  unfold mgReach
  split <;> rfl

theorem mgReach_queue (st : MGState) (qm : QueueMove) :
    ∀ x ∈ (mgReach st qm).queue, x = qm ∨ x ∈ st.queue := by
  unfold mgReach
  split
  · intro x hx
    exact List.mem_cons.mp hx
  · intro x hx
    exact Or.inr hx

theorem mgExpand_sound {b : Board} {piece : Piece} {md sd : Nat}
    {mv : QueueMove} {st : MGState}
    (hq : QueuePathInv b piece md sd st.queue)
    (hm : MapPathInv b piece md sd st.moves)
    (hmv : ∃ p, runSpawnPath b piece md sd p = some mv) :
    QueuePathInv b piece md sd (mgExpand b md sd mv st).queue ∧
    MapPathInv b piece md sd (mgExpand b md sd mv st).moves := by
  obtain ⟨p0, hp0⟩ := hmv
  have hstep : ∀ (st' : MGState) (m : PMove),
      QueuePathInv b piece md sd st'.queue →
      MapPathInv b piece md sd st'.moves →
      QueuePathInv b piece md sd (match stepMove b md sd mv m with
        | some q => mgReach st' q
        | none => st').queue ∧
      MapPathInv b piece md sd (match stepMove b md sd mv m with
        | some q => mgReach st' q
        | none => st').moves := by
    intro st' m hq' hm'
    cases hs : stepMove b md sd mv m with
    | none => exact ⟨hq', hm'⟩
    | some q =>
      constructor
      · intro x hx
        rcases mgReach_queue st' q x hx with h | h
        · rw [h]
          exact ⟨p0 ++ [m], runSpawnPath_snoc hp0 m hs⟩
        · exact hq' x h
      · rw [mgReach_moves]
        exact hm'
  have h1 := hstep st PMove.left hq hm
  have h2 := hstep _ PMove.right h1.1 h1.2
  have h3 := hstep _ PMove.cw h2.1 h2.2
  have h4 := hstep _ PMove.ccw h3.1 h3.2
  unfold mgExpand
  cases hs : stepMove b md sd mv PMove.down with
  | some q =>
    constructor
    · intro x hx
      rcases mgReach_queue _ q x hx with h | h
      · rw [h]
        exact ⟨p0 ++ [PMove.down], runSpawnPath_snoc hp0 PMove.down hs⟩
      · exact h4.1 x h
    · rw [mgReach_moves]
      exact h4.2
  | none =>
    refine ⟨h4.1, ?_⟩
    have hreal : LockRealizes b piece md sd
        (mv.loc.canonical_form, mv.spin) mv.cost.base :=
      ⟨p0, mv, hp0, stepMove_down_none hs, rfl, rfl, rfl⟩
    have hbound : mv.cost.base ≤ MAXU32 := by
      have := runSpawnPath_cost_bounds hp0
      unfold MAXU32
      omega
    exact mapInsertMin_sound h4.2 hreal hbound

theorem movegenStep_sound {b : Board} {piece : Piece} {md sd : Nat}
    {st : MGState} {mv : QueueMove} {q : List QueueMove}
    (hq : QueuePathInv b piece md sd st.queue)
    (hm : MapPathInv b piece md sd st.moves)
    (hmv : ∃ p, runSpawnPath b piece md sd p = some mv)
    (hsub : ∀ x ∈ q, x ∈ st.queue) :
    QueuePathInv b piece md sd (movegenStep b md sd st mv q).queue ∧
    MapPathInv b piece md sd (movegenStep b md sd st mv q).moves := by
  have hq2 : QueuePathInv b piece md sd ({ st with
      queue := q
      touched := st.touched ++ [mgIndex mv.loc mv.spin] } :
        MGState).queue :=
    fun x hx => hq x (hsub x hx)
  unfold movegenStep
  split
  · exact ⟨hq2, hm⟩
  · exact mgExpand_sound hq2 hm hmv

theorem movegenLoop_sound {b : Board} {piece : Piece} {md sd : Nat} :
    ∀ (fuel : Nat) (st : MGState),
      QueuePathInv b piece md sd st.queue →
      MapPathInv b piece md sd st.moves →
      MapPathInv b piece md sd (movegenLoop b md sd fuel st).moves := by
  intro fuel
  induction fuel with
  | zero => intro st _ hm; exact hm
  | succ fuel ih =>
    intro st hq hm
    rw [movegenLoop]
    generalize hpop : qmHeapPop st.queue = p
    cases p with
    | none => exact hm
    | some mq =>
      obtain ⟨mv, q⟩ := mq
      obtain ⟨hmem, hsub⟩ := qmHeapPop_spec hpop
      obtain ⟨hq', hm'⟩ := movegenStep_sound hq hm (hq mv hmem) hsub
      exact ih _ hq' hm'

/-- C4 (amended): every value the movegen map stores is *sound*: for any
key `(L, S)` with stored value `v`, some sequence of shift / rotate /
soft-drop transitions from the spawn location ends at a down-obstructed
node with canonical form `L`, spin `S` and base cost exactly `v`. (The
claim's minimality over all such sequences fails: the strictly-better
relaxation under the (base, softdrop) ordering prunes sequences whose
larger base comes with smaller pending softdrop, which can later undercut
the stored base; see the counterexample.) -/
theorem movegen_cost_sound (fuel : Nat) (b : Board) (piece : Piece)
    (md sd : Nat) (k : PieceLocation × Spin) (v : Nat)
    (h : (movegen fuel b piece md sd).moves.lookup k = some v) :
    LockRealizes b piece md sd k v := by
  unfold movegen at h
  generalize hsp : spawnLoc b piece = sp at h
  cases sp with
  | none => simp [List.lookup] at h
  | some start =>
    refine movegenLoop_sound fuel _ ?_ ?_ k v h
    · intro x hx
      rw [List.mem_singleton.mp hx]
      refine ⟨[], ?_⟩
      unfold runSpawnPath
      rw [hsp]
      rfl
    · intro k' v' h'
      simp [List.lookup] at h'

/-- Witness for the movegen soundness theorem: the spawn lock of the
confined T piece is realised by an actual transition sequence. -/
theorem movegen_cost_sound_witness :
    LockRealizes pocketBoard Piece.T 2 3
      (⟨Piece.T, Rotation.North, 4, 19⟩, Spin.None) 0 :=
  movegen_cost_sound 300 pocketBoard Piece.T 2 3
    (⟨Piece.T, Rotation.North, 4, 19⟩, Spin.None) 0 (by rfl)

/-- C4 (counterexample): on `cexBoard` with movement delay 2 and softdrop
delay 3, the movegen map stores base cost 19 for the West-T lock at
(5, 20) with spin `Mini` (the loop having terminated with fuel to spare),
but the explicit transition sequence `cexPath` from spawn reaches that very
down-obstructed node with base cost 17 < 19, so the stored value is not the
minimum over all transition sequences. -/
theorem movegen_not_optimal_counterexample :
    (movegen 300 cexBoard Piece.T 2 3).moves.lookup
      (⟨Piece.T, Rotation.West, 5, 20⟩, Spin.Mini) = some 19 ∧
    (movegen 300 cexBoard Piece.T 2 3).done = true ∧
    runSpawnPath cexBoard Piece.T 2 3 cexPath =
      some ⟨⟨Piece.T, Rotation.West, 5, 20⟩, Spin.Mini, ⟨17, 0⟩⟩ ∧
    ({ piece := Piece.T, rotation := Rotation.West, x := 5, y := 19 } :
      PieceLocation).obstructed cexBoard = true ∧
    (⟨Piece.T, Rotation.West, 5, 20⟩ :
      PieceLocation).canonical_form =
      ⟨Piece.T, Rotation.West, 5, 20⟩ ∧
    (17 : Nat) < 19 :=
  ⟨rfl, rfl, rfl, rfl, rfl, by decide⟩

theorem rowEmpty_emptyRow : rowEmpty emptyRow = true := by decide

theorem usizeOfInt_small {i : Int} (h0 : 0 ≤ i) (h : i < 40) :
    usizeOfInt i = i.toNat := by
  unfold usizeOfInt
  rw [Int.emod_eq_of_lt h0 (by omega)]

/-- Every piece footprint occupies a contiguous band of rows in every
rotation: a row lying between the rows of two cells is itself the row of
some cell. -/
theorem cells_snd_contig (loc : PieceLocation) (y1 y2 y : Int)
    (h1 : y1 ∈ loc.cells.map Prod.snd) (h2 : y2 ∈ loc.cells.map Prod.snd)
    (hl : y1 ≤ y) (hr : y ≤ y2) : y ∈ loc.cells.map Prod.snd := by
  obtain ⟨p, r, x, y0⟩ := loc
  cases p <;> cases r <;>
    simp only [PieceLocation.cells, Piece.cells, Rotation.rotate,
      List.map_cons, List.map_nil, List.mem_cons,
      List.mem_singleton, List.not_mem_nil, or_false] at h1 h2 ⊢ <;>
    omega

theorem setCell_length (b : Board) (x y : Int) (c : CellColor) :
    (b.setCell x y c).field.length = b.field.length := by
  simp [Board.setCell]

theorem setCell_WF {b : Board} (hWF : b.WF) (x y : Int) (c : CellColor) :
    (b.setCell x y c).WF := by
  refine ⟨by rw [setCell_length]; exact hWF.1, ?_⟩
  intro r hr
  unfold Board.setCell at hr
  by_cases hin : usizeOfInt y < b.field.length
  · rcases List.mem_or_eq_of_mem_set hr with h | h
    · exact hWF.2 r h
    · subst h
      have hg : b.field.get? (usizeOfInt y) = some (b.field[usizeOfInt y]) := by
        rw [List.get?_eq_getElem?]
        exact List.getElem?_eq_getElem hin
      rw [hg]
      simp only [Option.getD_some, List.length_set]
      exact hWF.2 _ (List.getElem_mem hin)
  · rw [List.set_eq_of_length_le (Nat.le_of_not_lt hin)] at hr
    exact hWF.2 r hr

theorem setCell_get?_ne {b : Board} {x y : Int} {c : CellColor} {j : Nat}
    (hne : usizeOfInt y ≠ j) :
    (b.setCell x y c).field.get? j = b.field.get? j := by
  unfold Board.setCell
  simp only [List.get?_eq_getElem?]
  exact List.getElem?_set_ne hne

theorem setCell_get?_self {b : Board} {x y : Int} {c : CellColor}
    (hin : usizeOfInt y < b.field.length) :
    (b.setCell x y c).field.get? (usizeOfInt y) =
      some (((b.field.get? (usizeOfInt y)).getD []).set (usizeOfInt x) c) := by
  unfold Board.setCell
  simp only [List.get?_eq_getElem?]
  exact List.getElem?_set_self hin

/-- Overwriting one cell with a non-empty colour cannot turn a row empty. -/
theorem rowEmpty_set {r : List CellColor} {x : Nat} {c : CellColor}
    (hc : c ≠ CellColor.Empty) (h : rowEmpty (r.set x c) = true) :
    rowEmpty r = true := by
  by_cases hx : x < r.length
  · exfalso
    have hset : (r.set x c).get? x = some c := by
      rw [List.get?_eq_getElem?]
      exact List.getElem?_set_self hx
    have hmem : c ∈ r.set x c := List.get?_mem hset
    unfold rowEmpty at h
    rw [List.all_eq_true] at h
    exact hc (of_decide_eq_true (h c hmem))
  · rw [List.set_eq_of_length_le (Nat.le_of_not_lt hx)] at h
    exact h

theorem setCell_rowEmpty {b : Board} {x y : Int} {col : CellColor} {j : Nat}
    (hc : col ≠ CellColor.Empty)
    (h : rowEmpty (((b.setCell x y col).field.get? j).getD []) = true) :
    rowEmpty ((b.field.get? j).getD []) = true := by
  by_cases hj : usizeOfInt y = j
  · subst hj
    by_cases hin : usizeOfInt y < b.field.length
    · rw [setCell_get?_self hin, Option.getD_some] at h
      exact rowEmpty_set hc h
    · unfold Board.setCell at h
      rw [List.set_eq_of_length_le (Nat.le_of_not_lt hin)] at h
      exact h
  · rw [setCell_get?_ne hj] at h
    exact h

/-- Writing a non-empty colour at in-range coordinates leaves the written
row non-empty. -/
theorem setCell_row_written {b : Board} {x y : Int} {col : CellColor}
    (hc : col ≠ CellColor.Empty) (hWF : b.WF) (hx : usizeOfInt x < 10)
    (hy : usizeOfInt y < 40) :
    rowEmpty (((b.setCell x y col).field.get? (usizeOfInt y)).getD []) =
      false := by
  have hin : usizeOfInt y < b.field.length := by rw [hWF.1]; exact hy
  obtain ⟨r, hr⟩ : ∃ r, b.field.get? (usizeOfInt y) = some r := by
    rw [List.get?_eq_getElem?]
    exact ⟨_, List.getElem?_eq_getElem hin⟩
  have hrl : r.length = 10 := hWF.2 r (List.get?_mem hr)
  rw [setCell_get?_self hin]
  simp only [hr, Option.getD_some]
  have hset : (r.set (usizeOfInt x) col).get? (usizeOfInt x) = some col := by
    rw [List.get?_eq_getElem?]
    exact List.getElem?_set_self (by omega)
  unfold rowEmpty
  rw [List.all_eq_false]
  exact ⟨col, List.get?_mem hset, by simpa using hc⟩

theorem writeFold_length (col : CellColor) :
    ∀ (cs : List (Int × Int)) (b : Board),
      (cs.foldl (fun bb d => bb.setCell d.1 d.2 col) b).field.length =
        b.field.length := by
  intro cs
  induction cs with
  | nil => intro b; rfl
  | cons d t ih =>
    intro b
    rw [List.foldl_cons, ih, setCell_length]

theorem writeFold_WF (col : CellColor) :
    ∀ (cs : List (Int × Int)) {b : Board}, b.WF →
      (cs.foldl (fun bb d => bb.setCell d.1 d.2 col) b).WF := by
  intro cs
  induction cs with
  | nil => intro b h; exact h
  | cons d t ih =>
    intro b h
    rw [List.foldl_cons]
    exact ih (setCell_WF h _ _ _)

theorem writeFold_get?_untouched (col : CellColor) :
    ∀ (cs : List (Int × Int)) (b : Board) (j : Nat),
      (∀ c ∈ cs, usizeOfInt c.2 ≠ j) →
      (cs.foldl (fun bb d => bb.setCell d.1 d.2 col) b).field.get? j =
        b.field.get? j := by
  intro cs
  induction cs with
  | nil => intro b j _; rfl
  | cons d t ih =>
    intro b j h
    rw [List.foldl_cons, ih _ j fun e he => h e (List.mem_cons_of_mem d he),
      setCell_get?_ne (h d (List.mem_cons_self d t))]

theorem writeFold_rowEmpty (col : CellColor) (hc : col ≠ CellColor.Empty) :
    ∀ (cs : List (Int × Int)) (b : Board) (j : Nat),
      rowEmpty (((cs.foldl (fun bb d => bb.setCell d.1 d.2 col) b).field.get?
        j).getD []) = true →
      rowEmpty ((b.field.get? j).getD []) = true := by
  intro cs
  induction cs with
  | nil => intro b j h; exact h
  | cons d t ih =>
    intro b j h
    rw [List.foldl_cons] at h
    exact setCell_rowEmpty hc (ih (b.setCell d.1 d.2 col) j h)

theorem writeFold_row_nonempty (col : CellColor) (hc : col ≠ CellColor.Empty)
    (cs : List (Int × Int)) (b : Board) (j : Nat)
    (h : rowEmpty ((b.field.get? j).getD []) = false) :
    rowEmpty (((cs.foldl (fun bb d => bb.setCell d.1 d.2 col) b).field.get?
      j).getD []) = false := by
  cases hX : rowEmpty (((cs.foldl (fun bb d => bb.setCell d.1 d.2 col)
      b).field.get? j).getD []) with
  | false => rfl
  | true =>
    have hini := writeFold_rowEmpty col hc cs b j hX
    rw [hini] at h
    exact Bool.noConfusion h

/-- The rows holding the written cells of an in-range placement are
non-empty afterwards. -/
theorem writeFold_row_written (col : CellColor) (hc : col ≠ CellColor.Empty) :
    ∀ (cs : List (Int × Int)) (b : Board), b.WF →
      (∀ c ∈ cs, usizeOfInt c.1 < 10 ∧ usizeOfInt c.2 < 40) →
      ∀ c ∈ cs,
        rowEmpty (((cs.foldl (fun bb d => bb.setCell d.1 d.2 col)
          b).field.get? (usizeOfInt c.2)).getD []) = false := by
  intro cs
  induction cs with
  | nil => intro b _ _ c hcm; exact absurd hcm (List.not_mem_nil c)
  | cons d t ih =>
    intro b hWF hrange c hcm
    rw [List.foldl_cons]
    rcases List.mem_cons.mp hcm with rfl | hmem
    · have hr := hrange c (List.mem_cons_self c t)
      exact writeFold_row_nonempty col hc t (b.setCell c.1 c.2 col) _
        (setCell_row_written hc hWF hr.1 hr.2)
    · exact ih (b.setCell d.1 d.2 col) (setCell_WF hWF _ _ _)
        (fun e he => hrange e (List.mem_cons_of_mem d he)) c hmem

/-- Index form of the compaction invariant: emptiness propagates upward. -/
theorem compacted_get? {b : Board} (hcomp : b.compacted) {i j : Nat}
    (hij : i ≤ j) (hj : j < b.field.length)
    (h : rowEmpty ((b.field.get? i).getD []) = true) :
    rowEmpty ((b.field.get? j).getD []) = true := by
  rcases Nat.lt_or_eq_of_le hij with hlt | heq
  · have hi : i < b.field.length := Nat.lt_trans hlt hj
    have hgi : b.field.get? i = some (b.field[i]) := by
      rw [List.get?_eq_getElem?]
      exact List.getElem?_eq_getElem hi
    have hgj : b.field.get? j = some (b.field[j]) := by
      rw [List.get?_eq_getElem?]
      exact List.getElem?_eq_getElem hj
    rw [hgi, Option.getD_some] at h
    rw [hgj, Option.getD_some]
    unfold Board.compacted at hcomp
    exact (List.pairwise_iff_getElem.mp hcomp i j hi hj hlt) h
  · subst heq
    exact h

/-- A filled read at in-range coordinates exhibits a non-empty row. -/
theorem get_true_row_nonempty {b : Board} (hWF : b.WF) {x y : Int}
    (hx0 : 0 ≤ x) (hx : x < 10) (hy0 : 0 ≤ y) (hy : y < 40)
    (h : b.get x y = true) :
    rowEmpty ((b.field.get? y.toNat).getD []) = false := by
  have hys : usizeOfInt y = y.toNat := usizeOfInt_small hy0 hy
  have hxs : usizeOfInt x = x.toNat := usizeOfInt_small hx0 (by omega)
  have hyl : y.toNat < b.field.length := by rw [hWF.1]; omega
  obtain ⟨r, hr⟩ : ∃ r, b.field.get? y.toNat = some r := by
    rw [List.get?_eq_getElem?]
    exact ⟨_, List.getElem?_eq_getElem hyl⟩
  have hrl : r.length = 10 := hWF.2 r (List.get?_mem hr)
  obtain ⟨v, hv⟩ : ∃ v, r.get? x.toNat = some v := by
    rw [List.get?_eq_getElem?]
    exact ⟨_, List.getElem?_eq_getElem (by omega)⟩
  have hvne : v ≠ CellColor.Empty := by
    intro hveq
    subst hveq
    unfold Board.get at h
    rw [hys, hxs, hr] at h
    rw [List.get?_eq_getElem?] at hv
    simp [hv] at h
  rw [hr, Option.getD_some]
  unfold rowEmpty
  rw [List.all_eq_false]
  exact ⟨v, List.get?_mem hv, by simpa using hvne⟩

/-- Shifting a location down one row shifts every footprint cell down one
row. -/
theorem cells_down (loc : PieceLocation) :
    ({ loc with y := loc.y - 1 } : PieceLocation).cells =
      loc.cells.map fun c => (c.1, c.2 - 1) := by
  unfold PieceLocation.cells
  simp only [List.map_map]
  refine List.map_congr_left fun a _ => ?_
  simp only [Function.comp]
  rw [Prod.mk.injEq]
  exact ⟨rfl, by omega⟩

/-- Writing the four cells of a validated down-obstructed placement onto a
well-formed compacted board keeps the rows compacted: the piece cannot be
suspended over an empty row. -/
theorem writeCells_pairwise {b : Board} {loc : PieceLocation} (hWF : b.WF)
    (hcomp : b.compacted) (hvp : validPlacement b loc) :
    (b.writeCells loc).compacted := by
  have hcol : (CellColor.Piece loc.piece) ≠ CellColor.Empty := by
    intro h
    exact CellColor.noConfusion h
  have hwdef : b.writeCells loc =
      loc.cells.foldl
        (fun bb d => bb.setCell d.1 d.2 (CellColor.Piece loc.piece)) b := rfl
  have hrange : ∀ c ∈ loc.cells,
      usizeOfInt c.1 < 10 ∧ usizeOfInt c.2 < 40 := by
    intro c hc
    obtain ⟨h1, h2, h3, h4⟩ := hvp.1 c hc
    rw [usizeOfInt_small h1 (by omega), usizeOfInt_small h3 h4]
    omega
  have hlen : (b.writeCells loc).field.length = 40 := by
    rw [hwdef, writeFold_length]
    exact hWF.1
  unfold Board.compacted
  rw [List.pairwise_iff_getElem]
  intro i j hi hj hij hei
  have hi40 : i < 40 := hlen ▸ hi
  have hj40 : j < 40 := hlen ▸ hj
  have hgi : (b.writeCells loc).field.get? i =
      some ((b.writeCells loc).field[i]) := by
    rw [List.get?_eq_getElem?]
    exact List.getElem?_eq_getElem hi
  have hgj : (b.writeCells loc).field.get? j =
      some ((b.writeCells loc).field[j]) := by
    rw [List.get?_eq_getElem?]
    exact List.getElem?_eq_getElem hj
  have hwi : rowEmpty (((b.writeCells loc).field.get? i).getD []) = true := by
    rw [hgi, Option.getD_some]
    exact hei
  suffices hgoal :
      rowEmpty (((b.writeCells loc).field.get? j).getD []) = true by
    rw [hgj, Option.getD_some] at hgoal
    exact hgoal
  have hbi : rowEmpty ((b.field.get? i).getD []) = true := by
    rw [hwdef] at hwi
    exact writeFold_rowEmpty _ hcol loc.cells b i hwi
  by_cases hjp : ∃ c ∈ loc.cells, usizeOfInt c.2 = j
  · obtain ⟨cj, hcjm, hcj⟩ := hjp
    exfalso
    have hnpi : ∀ c ∈ loc.cells, usizeOfInt c.2 ≠ i := by
      intro c hc hci
      have hne := writeFold_row_written _ hcol loc.cells b hWF hrange c hc
      rw [hci, ← hwdef] at hne
      rw [hwi] at hne
      exact Bool.noConfusion hne
    have hobs := hvp.2
    unfold PieceLocation.obstructed at hobs
    rw [cells_down loc, List.any_eq_true] at hobs
    obtain ⟨c', hcm', hcg'⟩ := hobs
    obtain ⟨c0, hc0m, rfl⟩ := List.mem_map.mp hcm'
    obtain ⟨hx0, hx1, hy0, hy1⟩ := hvp.1 c0 hc0m
    obtain ⟨hjx0, hjx1, hjy0, hjy1⟩ := hvp.1 cj hcjm
    have hcjInt : cj.2 = (j : Int) := by
      have hs := usizeOfInt_small hjy0 hjy1
      omega
    have hc0le : c0.2 ≤ (i : Int) := by
      by_cases h1 : (1 : Int) ≤ c0.2
      · have hget : b.get c0.1 (c0.2 - 1) = true := by simpa using hcg'
        have hbs := get_true_row_nonempty hWF hx0 hx1 (by omega) (by omega)
          hget
        by_contra hgt
        push_neg at hgt
        have hle : i ≤ (c0.2 - 1).toNat := by omega
        have hup := compacted_get? hcomp hle (by rw [hWF.1]; omega) hbi
        rw [hup] at hbs
        exact Bool.noConfusion hbs
      · omega
    have hmemi : (i : Int) ∈ loc.cells.map Prod.snd :=
      cells_snd_contig loc c0.2 cj.2 (i : Int)
        (List.mem_map.mpr ⟨c0, hc0m, rfl⟩)
        (List.mem_map.mpr ⟨cj, hcjm, rfl⟩)
        hc0le (by rw [hcjInt]; omega)
    obtain ⟨ci, hcim, hci2⟩ := List.mem_map.mp hmemi
    obtain ⟨hix0, hix1, hiy0, hiy1⟩ := hvp.1 ci hcim
    refine hnpi ci hcim ?_
    rw [usizeOfInt_small hiy0 hiy1]
    omega
  · push_neg at hjp
    have hU : (b.writeCells loc).field.get? j = b.field.get? j := by
      rw [hwdef]
      exact writeFold_get?_untouched _ loc.cells b j hjp
    rw [hU]
    exact compacted_get? hcomp (Nat.le_of_lt hij) (by rw [hWF.1]; omega) hbi

/-- Zeta-expanded form of `Board.place`. -/
theorem place_eq (b : Board) (loc : PieceLocation) :
    b.place loc =
      (40 - ((b.writeCells loc).field.filter fun r => ¬ rowFull r).length,
        (⟨((b.writeCells loc).field.filter fun r => ¬ rowFull r) ++
          List.replicate
            (40 -
              ((b.writeCells loc).field.filter fun r => ¬ rowFull r).length)
            emptyRow⟩ : Board)) := rfl

theorem place_WF {b : Board} (loc : PieceLocation) (hWF : b.WF) :
    (b.place loc).2.WF := by
  have hwWF : (b.writeCells loc).WF := by
    unfold Board.writeCells
    exact writeFold_WF _ loc.cells hWF
  rw [place_eq]
  refine ⟨?_, ?_⟩
  · have hle := List.length_filter_le (fun r => decide ¬ rowFull r = true)
      (b.writeCells loc).field
    simp only [List.length_append, List.length_replicate]
    have hl40 := hwWF.1
    omega
  · intro r hr
    rcases List.mem_append.mp hr with h | h
    · exact hwWF.2 r (List.mem_filter.mp h).1
    · rw [List.eq_of_mem_replicate h]
      simp [emptyRow]

theorem place_compacted {b : Board} {loc : PieceLocation} (hWF : b.WF)
    (hcomp : b.compacted) (hvp : validPlacement b loc) :
    (b.place loc).2.compacted := by
  have hw := writeCells_pairwise hWF hcomp hvp
  rw [place_eq]
  unfold Board.compacted at hw ⊢
  rw [List.pairwise_append]
  refine ⟨List.Pairwise.filter _ hw, ?_, ?_⟩
  · refine List.pairwise_of_forall_mem_list fun r _ s hs => fun _ => ?_
    rw [List.eq_of_mem_replicate hs]
    exact rowEmpty_emptyRow
  · intro r _ s hs _
    rw [List.eq_of_mem_replicate hs]
    exact rowEmpty_emptyRow

theorem length_filter_rowFull_partition (l : List (List CellColor)) :
    (l.filter fun r => rowFull r).length +
      (l.filter fun r => ¬ rowFull r).length = l.length := by
  induction l with
  | nil => rfl
  | cons r t ih =>
    by_cases h : rowFull r = true <;>
      simp [List.filter_cons, h] at ih ⊢ <;> omega

theorem place_count {b : Board} (loc : PieceLocation) (hWF : b.WF) :
    (b.place loc).1 =
      ((b.writeCells loc).field.filter fun r => rowFull r).length := by
  have hwl : (b.writeCells loc).field.length = 40 := by
    unfold Board.writeCells
    rw [writeFold_length]
    exact hWF.1
  have hpart := length_filter_rowFull_partition (b.writeCells loc).field
  rw [place_eq]
  show 40 -
    ((b.writeCells loc).field.filter fun r => ¬ rowFull r).length = _
  omega

/-- A garbage row is never empty: at most one of its cells is the hole. -/
theorem garbageRow_not_empty (c : Nat) : rowEmpty (garbageRow c) = false := by
  unfold rowEmpty
  rw [List.all_eq_false]
  by_cases h : c = 0
  · refine ⟨CellColor.Garbage, ?_, by simp⟩
    unfold garbageRow
    refine List.mem_map.mpr ⟨1, by simp, ?_⟩
    rw [if_neg (by omega)]
  · refine ⟨CellColor.Garbage, ?_, by simp⟩
    unfold garbageRow
    refine List.mem_map.mpr ⟨0, by simp, ?_⟩
    rw [if_neg (by omega)]

theorem add_garbage_WF {b : Board} (hWF : b.WF) (cols : List Nat) :
    (b.add_garbage cols).WF := by
  unfold Board.add_garbage
  refine ⟨?_, ?_⟩
  · simp only [List.length_take, List.length_append, List.length_map,
      List.length_reverse, hWF.1]
    omega
  · intro r hr
    rcases List.mem_append.mp (List.mem_of_mem_take hr) with h | h
    · obtain ⟨c, _, rfl⟩ := List.mem_map.mp h
      simp [garbageRow]
    · exact hWF.2 r h

theorem add_garbage_compacted {b : Board} (hcomp : b.compacted)
    (cols : List Nat) : (b.add_garbage cols).compacted := by
  unfold Board.add_garbage Board.compacted
  refine List.Pairwise.sublist (List.take_sublist _ _) ?_
  rw [List.pairwise_append]
  refine ⟨?_, hcomp, ?_⟩
  · refine List.pairwise_of_forall_mem_list fun r hr s _ => fun hre => ?_
    obtain ⟨c, _, rfl⟩ := List.mem_map.mp hr
    rw [garbageRow_not_empty c] at hre
    exact Bool.noConfusion hre
  · intro r hr s _ hre
    obtain ⟨c, _, rfl⟩ := List.mem_map.mp hr
    rw [garbageRow_not_empty c] at hre
    exact Bool.noConfusion hre

/-- Boards reachable by the game's operations stay well-formed and
compacted. -/
theorem reachable_WF_compacted {b : Board} (h : Reachable b) :
    b.WF ∧ b.compacted := by
  induction h with
  | empty =>
    refine ⟨by decide, ?_⟩
    unfold Board.compacted Board.default
    exact List.pairwise_of_forall_mem_list fun r _ s hs => fun _ => by
      rw [List.eq_of_mem_replicate hs]
      exact rowEmpty_emptyRow
  | place hr hvp ih => exact ⟨place_WF _ ih.1, place_compacted ih.1 ih.2 hvp⟩
  | garbage hr hcols ih =>
    exact ⟨add_garbage_WF ih.1 _, add_garbage_compacted ih.2 _⟩

/-- C6: on every board reachable from the empty board by the game's
operations, placing a validated down-obstructed location yields a board in
which every fully-empty row lies strictly above every non-empty row, and
`place` returns exactly the number of fully non-empty rows of the written
board, i.e. the number of rows it discarded. -/
theorem place_compaction_invariant (b : Board) (loc : PieceLocation)
    (hreach : Reachable b) (hvp : validPlacement b loc) :
    (b.place loc).2.compacted ∧
    (b.place loc).1 =
      ((b.writeCells loc).field.filter fun r => rowFull r).length := by
  obtain ⟨hWF, hcomp⟩ := reachable_WF_compacted hreach
  exact ⟨place_compacted hWF hcomp hvp, place_count loc hWF⟩

theorem place_compaction_invariant_witness :
    (Board.default.place ⟨Piece.O, Rotation.North, 0, 0⟩).2.compacted ∧
    (Board.default.place ⟨Piece.O, Rotation.North, 0, 0⟩).1 =
      ((Board.default.writeCells ⟨Piece.O, Rotation.North, 0, 0⟩).field.filter
        fun r => rowFull r).length :=
  place_compaction_invariant Board.default ⟨Piece.O, Rotation.North, 0, 0⟩
    Reachable.empty (by unfold validPlacement; decide)

end Battletris
